import Mathlib

/-!
Verification of the email-alias generator application.

The application (src/email-alias-generator/src/App.js) ingests a parsed CSV
table, decides whether the first row is a header, extracts person names and
email addresses, and produces records carrying a randomly generated alias
address.  This file gives a shallow embedding of the relevant functions.

Modelling conventions:
* JavaScript strings are modelled as `List Char` (`Str`).  The CSV parsing
  collaborator (papaparse) delivers every cell as a string, so cell values
  are `Str`; an absent/null value is modelled as `Option Str` where it can
  occur.  A string is JS-falsy exactly when it is empty.
* The two `Math.random()` draws made per generated alias (an integer in
  [0, 10000) and the fragment `Math.random().toString(36).substring(2, 5)`,
  which consists of 0 to 3 characters from [0-9a-z]) are passed as explicit
  parameters; process functions receive a draw supply indexed by the number
  of records already produced.
* Character classes follow the source regular expression
  `^[a-zA-Z0-9._%+-]+@[a-zA-Z0-9.-]+\.[a-zA-Z]{2,}$` (ASCII ranges).
-/

namespace EmailAlias

abbrev Str := List Char

/-- ASCII uppercase letter test, by code point (matches `[A-Z]`). -/
def isAsciiUpper (c : Char) : Bool :=
  decide (65 ≤ c.toNat) && decide (c.toNat ≤ 90)

/-- ASCII lowercase letter test, by code point (matches `[a-z]`). -/
def isAsciiLower (c : Char) : Bool :=
  decide (97 ≤ c.toNat) && decide (c.toNat ≤ 122)

/-- ASCII letter test (matches `[a-zA-Z]`). -/
def isAsciiAlpha (c : Char) : Bool :=
  isAsciiUpper c || isAsciiLower c

/-- ASCII digit test (matches `[0-9]`). -/
def isAsciiDigit (c : Char) : Bool :=
  decide (48 ≤ c.toNat) && decide (c.toNat ≤ 57)

/-- Character class of the local part of the email regex: `[a-zA-Z0-9._%+-]`. -/
def isLocalChar (c : Char) : Bool :=
  isAsciiAlpha c || isAsciiDigit c || c == '.' || c == '_' || c == '%' || c == '+' || c == '-'

/-- Character class of the domain part of the email regex: `[a-zA-Z0-9.-]`. -/
def isDomainChar (c : Char) : Bool :=
  isAsciiAlpha c || isAsciiDigit c || c == '.' || c == '-'

/-- Character class of the top-level-domain part of the email regex: `[a-zA-Z]`. -/
def isTldChar (c : Char) : Bool :=
  isAsciiAlpha c

/-- Whitespace as trimmed by JavaScript `String.prototype.trim` (ASCII part:
space, tab, line feed, carriage return, vertical tab, form feed). -/
def isJsWs (c : Char) : Bool :=
  c.toNat == 32 || c.toNat == 9 || c.toNat == 10 || c.toNat == 13 ||
  c.toNat == 11 || c.toNat == 12

/-- Model of `String.prototype.trim`: drop whitespace from both ends. -/
def trimL (s : Str) : Str :=
  ((s.dropWhile isJsWs).reverse.dropWhile isJsWs).reverse

/-- Model of ASCII `String.prototype.toLowerCase` on one character:
map `A`-`Z` to `a`-`z`, leave everything else unchanged. -/
def lowerChar (c : Char) : Char :=
  if isAsciiUpper c then Char.ofNat (c.toNat + 32) else c

/-- Model of `String.prototype.toLowerCase` (ASCII). -/
def lowerStr (s : Str) : Str :=
  s.map lowerChar

/-- Does `s` start with `pat`?  (Helper for `String.prototype.includes`.) -/
def startsWithL : Str → Str → Bool
  | [], _ => true
  | _ :: _, [] => false
  | p :: ps, c :: cs => p == c && startsWithL ps cs

/-- Model of `String.prototype.includes`: does `s` contain `pat` as a
contiguous substring? -/
def containsSub (s pat : Str) : Bool :=
  match s with
  | [] => pat.isEmpty
  | _ :: rest => startsWithL pat s || containsSub rest pat

/-- Tail of the anchored email regex after the mandatory dot:
does `a` match `[a-zA-Z]{2,}$` as a whole string? -/
def tldTail (a : Str) : Bool :=
  decide (2 ≤ a.length) && a.all isTldChar

/-- Does `r` match `[a-zA-Z0-9.-]*\.[a-zA-Z]{2,}$` as a whole string?
Both regex alternatives (end the star here and read the literal dot, or
consume one more domain character) are tried, mirroring backtracking. -/
def domainStarTail : Str → Bool
  | [] => false
  | c :: rest => (c == '.' && tldTail rest) || (isDomainChar c && domainStarTail rest)

/-- Does `r` match `[a-zA-Z0-9.-]+\.[a-zA-Z]{2,}$` as a whole string? -/
def domainPlusTail : Str → Bool
  | [] => false
  | c :: rest => isDomainChar c && domainStarTail rest

/-- Does `s` match `[a-zA-Z0-9._%+-]*@[a-zA-Z0-9.-]+\.[a-zA-Z]{2,}$` as a
whole string? -/
def localStarAt : Str → Bool
  | [] => false
  | c :: rest => (c == '@' && domainPlusTail rest) || (isLocalChar c && localStarAt rest)

/-- Model of `emailRegex.test` for the anchored pattern
`^[a-zA-Z0-9._%+-]+@[a-zA-Z0-9.-]+\.[a-zA-Z]{2,}$` (App.js line 12). -/
def emailRegexTest : Str → Bool
  | [] => false
  | c :: rest => isLocalChar c && localStarAt rest

/-- Greedy match of `\.[a-zA-Z]{2,}` at the start of `r`: the literal dot
followed by the maximal run of letters, which must have length at least 2.
Returns the matched prefix. -/
def dotAlphaAt (r : Str) : Option Str :=
  match r with
  | [] => none
  | c :: rest =>
      if c == '.' && decide (2 ≤ (rest.takeWhile isTldChar).length) then
        some (c :: rest.takeWhile isTldChar)
      else none

/-- Greedy match of `[a-zA-Z0-9.-]*\.[a-zA-Z]{2,}` at the start of `r`,
preferring to consume more domain characters first (regex backtracking).
Returns the matched prefix. -/
def domainMatchAux : Str → Option Str
  | [] => none
  | c :: rest =>
      if isDomainChar c then
        match domainMatchAux rest with
        | some m => some (c :: m)
        | none => dotAlphaAt (c :: rest)
      else dotAlphaAt (c :: rest)

/-- Greedy match of `[a-zA-Z0-9.-]+\.[a-zA-Z]{2,}` at the start of `r`.
Returns the matched prefix. -/
def domainMatch : Str → Option Str
  | [] => none
  | c :: rest =>
      if isDomainChar c then (domainMatchAux rest).map (fun m => c :: m) else none

/-- Match of the unanchored email pattern starting exactly at the head of
`s`.  `[a-zA-Z0-9._%+-]+` must be the maximal local-character run (a shorter
run would be followed by a local character, never by `@`). -/
def matchAt (s : Str) : Option Str :=
  if (s.takeWhile isLocalChar).isEmpty then none
  else
    match s.drop (s.takeWhile isLocalChar).length with
    | [] => none
    | c :: r2 =>
        if c == '@' then
          (domainMatch r2).map (fun m => s.takeWhile isLocalChar ++ '@' :: m)
        else none

/-- Model of `stringValue.match(/[a-zA-Z0-9._%+-]+@[a-zA-Z0-9.-]+\.[a-zA-Z]{2,}/)`:
the regex engine tries every start position from the left and returns the
first (leftmost) match (App.js line 43). -/
def firstEmailMatch : Str → Option Str
  | [] => none
  | c :: rest =>
      match matchAt (c :: rest) with
      | some m => some m
      | none => firstEmailMatch rest

/-- Model of `extractEmail` (App.js lines 36-45).  The argument is `none`
for a null/undefined value; a string value is JS-falsy exactly when empty.
If the trimmed string passes the anchored test it is returned verbatim,
otherwise the first substring matching the unanchored pattern is returned. -/
def extractEmail (value : Option Str) : Option Str :=
  match value with
  | none => none
  | some v =>
      if v.isEmpty then none
      else
        if emailRegexTest (trimL v) then some (trimL v)
        else firstEmailMatch (trimL v)

/-- Is an optional string value JS-truthy?  (`null`/`undefined` and the
empty string are falsy.) -/
def truthy (o : Option Str) : Bool :=
  match o with
  | some (_ :: _) => true
  | _ => false

/-- JS `value || ''`: the value if truthy, else the empty string. -/
def orEmpty (o : Option Str) : Str :=
  match o with
  | some (c :: rest) => c :: rest
  | _ => []

/-- Decimal digit character for `d < 10` (`'0' + d`). -/
def digitChar (d : Nat) : Char :=
  Char.ofNat (48 + d)

/-- Decimal rendering worker, structurally recursive on a fuel bound (the
recursion depth is at most the number of digits, so any fuel above `n`
suffices). -/
def natToDigitsAux (fuel : Nat) (n : Nat) : Str :=
  match fuel with
  | 0 => []
  | fuel + 1 =>
      if n < 10 then [digitChar n]
      else natToDigitsAux fuel (n / 10) ++ [digitChar (n % 10)]

/-- Decimal rendering of a natural number, as produced by the JS template
literal `${randomNum}` for a nonnegative integer. -/
def natToDigits (n : Nat) : Str :=
  natToDigitsAux (n + 1) n

/-- The fixed alias domain suffix appended by `generateAlias`. -/
def aliasDomainL : Str :=
  "@cdnhyd.appen.com".toList

/-- `email.split('@')[0]`: the part of the string before the first `@`
(the whole string when there is no `@`). -/
def localPartOf (email : Str) : Str :=
  email.takeWhile (fun c => !(c == '@'))

/-- Model of `generateAlias` (App.js lines 15-21).  The two `Math.random()`
draws are explicit parameters: `randomNum` models
`Math.floor(Math.random() * 10000)` (an integer in [0, 10000)) and
`randomChars` models `Math.random().toString(36).substring(2, 5)` (between
0 and 3 characters from [0-9a-z]; for example `(0.0625).toString(36)` is
the 4-character string whose third and fourth characters are `2` and `9`,
giving the 2-character fragment).  `charAt(0)` of an empty local part is
the empty string, modelled by an empty first-character list. -/
def generateAlias (email : Str) (randomNum : Nat) (randomChars : Str) : Str :=
  let firstChar : Str :=
    match localPartOf email with
    | [] => []
    | c :: _ => [lowerChar c]
  firstChar ++ natToDigits randomNum ++ randomChars ++ aliasDomainL

/-- A parsed row in header mode: the ordered field list of the row object,
as (column name, cell value) pairs.  `Object.keys`/`Object.values` iterate
in this insertion order. -/
abbrev RowH := List (Str × Str)

/-- A parsed row in headerless mode: the ordered cell list. -/
abbrev RowL := List Str

/-- Does a column name match one of the candidate names?  Model of the key
test in `findColumn`: `key.toLowerCase().trim()` must contain one of the
candidates as a substring (App.js lines 27-28). -/
def nameMatches (key : Str) (possibleNames : List Str) : Bool :=
  possibleNames.any (fun name => containsSub (trimL (lowerStr key)) name)

/-- Model of `findColumn` (App.js lines 24-33): the value of the first
field whose lower-cased, trimmed name contains one of `possibleNames`;
`none` models the `null` returned when no field name matches. -/
def findColumn (row : RowH) (possibleNames : List Str) : Option Str :=
  match row with
  | [] => none
  | (k, v) :: rest =>
      if nameMatches k possibleNames then some v else findColumn rest possibleNames

/-- Candidate first-name column names (App.js line 62). -/
def firstNameKeys : List Str :=
  ["first".toList, "fname".toList, "firstname".toList, "given".toList]

/-- Candidate last-name column names (App.js line 63). -/
def lastNameKeys : List Str :=
  ["last".toList, "lname".toList, "lastname".toList, "surname".toList, "family".toList]

/-- Candidate email column names (App.js line 66). -/
def emailKeys : List Str :=
  ["email".toList, "e-mail".toList, "mail".toList, "address".toList]

/-- The scan fallback of the header strategy (App.js lines 70-76): walk all
field values in order and take the first one whose extraction result is
truthy. -/
def scanRowForEmail : RowH → Option Str
  | [] => none
  | (_, v) :: rest =>
      if truthy (extractEmail (some v)) then extractEmail (some v)
      else scanRowForEmail rest

/-- Email resolution for one row of the header strategy (App.js lines
66-80): take the first field whose name matches the email candidates; if
that value is truthy, extract from it (with no fallback), otherwise scan
every field value. -/
def rowEmail (row : RowH) : Option Str :=
  if truthy (findColumn row emailKeys) then extractEmail (findColumn row emailKeys)
  else scanRowForEmail row

/-- One output record (App.js lines 84-90 and 160-166). -/
structure Record where
  id : Nat
  firstName : Str
  lastName : Str
  originalEmail : Str
  aliasEmail : Str
deriving DecidableEq

/-- A supply of the random draws consumed per generated alias, indexed by
the number of records already produced. -/
abbrev Rand := Nat → Nat × Str

/-- The shared `emailsFound++; processed.push({...})` step of both
strategies (App.js lines 83-90 and 122-166): append a record whose id is
the new length, and increment the counter. -/
def pushRecord (acc : List Record × Nat) (firstName lastName email : Str)
    (draw : Nat × Str) : List Record × Nat :=
  (acc.1 ++ [{ id := acc.1.length + 1, firstName := firstName, lastName := lastName,
               originalEmail := email, aliasEmail := generateAlias email draw.1 draw.2 }],
   acc.2 + 1)

/-- The body of `data.forEach` in `processWithHeaders` (App.js lines
60-92): resolve names and email for the row and, when the email is truthy,
increment `emailsFound` and push a record. -/
def stepWH (rand : Rand) (acc : List Record × Nat) (row : RowH) : List Record × Nat :=
  match rowEmail row with
  | some (c :: cs) =>
      pushRecord acc (orEmpty (findColumn row firstNameKeys))
        (orEmpty (findColumn row lastNameKeys)) (c :: cs) (rand acc.1.length)
  | _ => acc

/-- Is some field value of a header-mode row truthy?  (The row filter of
App.js line 49.) -/
def nonEmptyRowH (row : RowH) : Bool :=
  row.any (fun kv => !kv.2.isEmpty)

/-- Is some cell of a headerless row truthy?  (The row filter of App.js
line 106.) -/
def nonEmptyRowL (row : RowL) : Bool :=
  row.any (fun v => !v.isEmpty)

/-- Outcome of one extraction strategy: the error message `'No valid data
found in CSV'`, the error message `'No valid email addresses found in the
CSV file'`, or the produced record list. -/
inductive ProcessResult where
  | noData
  | noEmailsFound
  | success (records : List Record)
deriving DecidableEq

/-- Model of `processWithHeaders` (App.js lines 48-102), as the computation
of its outcome: filter out rows with no truthy value, fail on zero rows,
fold the row processing, fail when `emailsFound` is zero, else succeed with
the record list. -/
def processWithHeaders (rand : Rand) (rows : List RowH) : ProcessResult :=
  if (rows.filter nonEmptyRowH).isEmpty then .noData
  else
    if ((rows.filter nonEmptyRowH).foldl (stepWH rand) ([], 0)).2 = 0 then .noEmailsFound
    else .success ((rows.filter nonEmptyRowH).foldl (stepWH rand) ([], 0)).1

mutual

/-- Model of `String.prototype.split(/\s+/)`, field-accumulation state:
`cur` holds the reversed characters of the current field. -/
def splitWsGo (cur : Str) : Str → List Str
  | [] => [cur.reverse]
  | c :: rest =>
      if isJsWs c then cur.reverse :: splitWsSkip rest
      else splitWsGo (c :: cur) rest

/-- Model of `String.prototype.split(/\s+/)`, separator-skipping state:
a maximal whitespace run is one separator. -/
def splitWsSkip : Str → List Str
  | [] => [[]]
  | c :: rest =>
      if isJsWs c then splitWsSkip rest
      else splitWsGo [c] rest

end

/-- Model of `String.prototype.split(/\s+/)`: the (possibly empty) fields
between maximal whitespace runs. -/
def splitWsChunks (s : Str) : List Str :=
  splitWsGo [] s

/-- The whitespace split `prevCell.split(/\s+/)` followed by the name
assembly of App.js lines 139-145 and 149-155: with at least two tokens the
first token is the first name and the remaining tokens joined by single
spaces are the last name; otherwise the cell itself is the first name. -/
def splitNameCell (prevCell : Str) : Str × Str :=
  if 2 ≤ (splitWsChunks prevCell).length then
    ((splitWsChunks prevCell).headD [],
     List.intercalate [' '] (splitWsChunks prevCell).tail)
  else (prevCell, [])

/-- The name lookback of the headerless strategy (App.js lines 124-158) for
the cell at index `i` of `row`: inspect up to two preceding cells. -/
def inferNames (row : RowL) (i : Nat) : Str × Str :=
  if decide (0 < i) && !truthy (extractEmail (some (row.getD (i - 1) []))) then
    if !(trimL (row.getD (i - 1) [])).isEmpty &&
        decide ((trimL (row.getD (i - 1) [])).length < 50) then
      if decide (1 < i) && !truthy (extractEmail (some (row.getD (i - 2) []))) then
        if !(trimL (row.getD (i - 2) [])).isEmpty &&
            decide ((trimL (row.getD (i - 2) [])).length < 50) then
          (trimL (row.getD (i - 2) []), trimL (row.getD (i - 1) []))
        else splitNameCell (trimL (row.getD (i - 1) []))
      else splitNameCell (trimL (row.getD (i - 1) []))
    else ([], [])
  else ([], [])

/-- The body of `row.forEach` in `processWithoutHeaders` (App.js lines
119-168): walk the cells of `row` (passed again as the iteration list
`cells`, with `i` the index of its head), and for each cell whose
extraction is truthy, increment `emailsFound`, run the name lookback and
push a record. -/
def cellsFold (rand : Rand) (row : RowL) (acc : List Record × Nat) (i : Nat) :
    List Str → List Record × Nat
  | [] => acc
  | cell :: rest =>
      match extractEmail (some cell) with
      | some (c :: cs) =>
          cellsFold rand row
            (pushRecord acc (inferNames row i).1 (inferNames row i).2 (c :: cs)
              (rand acc.1.length)) (i + 1) rest
      | _ => cellsFold rand row acc (i + 1) rest

/-- The body of `data.forEach` in `processWithoutHeaders`: scan every cell
of the row in index order. -/
def stepNH (rand : Rand) (acc : List Record × Nat) (row : RowL) : List Record × Nat :=
  cellsFold rand row acc 0 row

/-- Model of `processWithoutHeaders` (App.js lines 105-179), as the
computation of its outcome. -/
def processWithoutHeaders (rand : Rand) (rows : List RowL) : ProcessResult :=
  if (rows.filter nonEmptyRowL).isEmpty then .noData
  else
    if ((rows.filter nonEmptyRowL).foldl (stepNH rand) ([], 0)).2 = 0 then .noEmailsFound
    else .success ((rows.filter nonEmptyRowL).foldl (stepNH rand) ([], 0)).1

/-- Header-mode or headerless-mode decision. -/
inductive Mode where
  | header
  | headerless
deriving DecidableEq

/-- The mode decision of `handleFileUpload` (App.js lines 203-209 and
226-239) on the header-inference parse result: headerless when there is no
first row or the first row has zero fields, headerless when some field
name passes the anchored email test, else header. -/
def detectMode (rows : List RowH) : Mode :=
  match rows with
  | [] => .headerless
  | firstRow :: _ =>
      if firstRow.length = 0 then .headerless
      else if firstRow.any (fun kv => emailRegexTest kv.1) then .headerless
      else .header

/-- The branch taken by the `complete` callback of the first parse (App.js
lines 203-239) once both parse results are available: run the header
strategy on the header-inference rows, or the headerless strategy on the
re-parse rows. -/
def dispatch (rand : Rand) (rowsH : List RowH) (rowsNH : List RowL) : ProcessResult :=
  match detectMode rowsH with
  | .header => processWithHeaders rand rowsH
  | .headerless => processWithoutHeaders rand rowsNH

/-- The component state owned by the presentation layer: the current
record list, the processing flag and the error message. -/
structure AppState where
  processedData : List Record
  isProcessing : Bool
  error : Str
deriving DecidableEq

/-- Outcome of one external parse: the row collection, or a parse error
message. -/
inductive ParseOutcome (α : Type) where
  | ok (rows : α)
  | failed (message : Str)

/-- The state effect of a strategy outcome (App.js lines 51-54, 94-97,
100-101 and their headerless counterparts): failures set the error message
and leave `processedData` untouched; success replaces `processedData`
wholesale. -/
def applyResult (st : AppState) (r : ProcessResult) : AppState :=
  match r with
  | .noData =>
      { st with error := "No valid data found in CSV".toList, isProcessing := false }
  | .noEmailsFound =>
      { st with error := "No valid email addresses found in the CSV file".toList,
                isProcessing := false }
  | .success l =>
      { st with processedData := l, isProcessing := false }

/-- `file.name.endsWith('.csv')` (App.js line 190). -/
def endsWithCsv (fileName : Str) : Bool :=
  List.isSuffixOf (".csv".toList) fileName

/-- Model of `handleFileUpload` (App.js lines 182-250) as a state
transformer, with the two possible parse outcomes supplied by the external
parser: clear the error, reject a non-`.csv` name, report a parse error,
otherwise dispatch on the detected mode (the headerless branch consumes
the re-parse outcome).  The `catch` of the callback cannot fire in this
model, since the embedded processing is total. -/
def handleFileUpload (rand : Rand) (fileName : Str)
    (parseWithHeader : ParseOutcome (List RowH))
    (parseNoHeader : ParseOutcome (List RowL)) (st : AppState) : AppState :=
  if !endsWithCsv fileName then
    { st with error := "Please upload a CSV file".toList }
  else
    match parseWithHeader with
    | .failed m =>
        { st with error := "Error parsing CSV file: ".toList ++ m, isProcessing := false }
    | .ok rowsH =>
        match detectMode rowsH with
        | .header => applyResult { st with error := [], isProcessing := true }
            (processWithHeaders rand rowsH)
        | .headerless =>
            match parseNoHeader with
            | .failed m =>
                { st with error := "Error parsing CSV file: ".toList ++ m,
                          isProcessing := false }
            | .ok rowsNH => applyResult { st with error := [], isProcessing := true }
                (processWithoutHeaders rand rowsNH)

/-- The record list of a fully successful upload, if any: the upload
succeeds exactly when the file name is accepted, the needed parses
succeed, and the dispatched strategy succeeds. -/
def uploadRecords (rand : Rand) (fileName : Str)
    (parseWithHeader : ParseOutcome (List RowH))
    (parseNoHeader : ParseOutcome (List RowL)) : Option (List Record) :=
  if !endsWithCsv fileName then none
  else
    match parseWithHeader with
    | .failed _ => none
    | .ok rowsH =>
        match detectMode rowsH with
        | .header =>
            match processWithHeaders rand rowsH with
            | .success l => some l
            | _ => none
        | .headerless =>
            match parseNoHeader with
            | .failed _ => none
            | .ok rowsNH =>
                match processWithoutHeaders rand rowsNH with
                | .success l => some l
                | _ => none

/-- A record with the alias field erased, for statements about the
randomness-independent fields. -/
structure RecordCore where
  id : Nat
  firstName : Str
  lastName : Str
  originalEmail : Str
deriving DecidableEq

/-- Erase the alias field of a record. -/
def stripRecord (r : Record) : RecordCore :=
  { id := r.id, firstName := r.firstName, lastName := r.lastName,
    originalEmail := r.originalEmail }

/-- A strategy outcome with the alias fields erased. -/
inductive CoreResult where
  | noData
  | noEmailsFound
  | success (records : List RecordCore)
deriving DecidableEq

/-- Erase the alias fields of a strategy outcome. -/
def stripResult : ProcessResult → CoreResult
  | .noData => .noData
  | .noEmailsFound => .noEmailsFound
  | .success l => .success (l.map stripRecord)

/-- Base-36 digit as produced by `Number.prototype.toString(36)`:
`[0-9a-z]`. -/
def isBase36 (c : Char) : Bool :=
  isAsciiDigit c || isAsciiLower c

/-- Character class `[a-z0-9._%+-]`: the possible lower-cased first
characters of a local part. -/
def isLowerLocal (c : Char) : Bool :=
  isAsciiLower c || isAsciiDigit c || c == '.' || c == '_' || c == '%' || c == '+' || c == '-'

/-- Does `s`, split at `d` then `k` more characters, read as `d` decimal
digits, then `k` base-36 characters, then exactly the alias domain? -/
def aliasTail (s : Str) (d k : Nat) : Bool :=
  decide ((s.take d).length = d) && (s.take d).all isAsciiDigit &&
  decide (((s.drop d).take k).length = k) && ((s.drop d).take k).all isBase36 &&
  decide ((s.drop d).drop k = aliasDomainL)

/-- The alias shape claimed by the specification:
`^[a-z][0-9]{1,4}[0-9a-z]{3}@cdnhyd.appen.com$` (a split with 1 to 4
digits then exactly 3 base-36 characters must exist). -/
def aliasPattern (s : Str) : Bool :=
  match s with
  | [] => false
  | c :: rest => isAsciiLower c && (List.range 4).any (fun j => aliasTail rest (j + 1) 3)

/-- The corrected alias shape:
`^[a-z0-9._%+-][0-9]{1,4}[0-9a-z]{0,3}@cdnhyd.appen.com$`. -/
def aliasPatternAmended (s : Str) : Bool :=
  match s with
  | [] => false
  | c :: rest =>
      isLowerLocal c &&
      (List.range 4).any (fun j => (List.range 4).any (fun k => aliasTail rest (j + 1) k))

/-- The specification's wording of the split step of the name lookback:
with at least two whitespace tokens, first token and space-joined rest;
with one token, the cell itself and an empty last name. -/
def splitNameSpec (p1 : Str) : Str × Str :=
  if 2 ≤ (splitWsChunks p1).length then
    ((splitWsChunks p1).headD [], List.intercalate [' '] (splitWsChunks p1).tail)
  else (p1, [])

/-- The specification's wording of the name lookback for the cell at index
`i`: conditions stated as propositions about the preceding one or two
cells (the cell exists, extraction from it fails, and its trimmed value is
non-empty and shorter than 50 characters). -/
def inferNamesSpec (row : RowL) (i : Nat) : Str × Str :=
  if 1 ≤ i ∧ extractEmail (some (row.getD (i - 1) [])) = none
      ∧ trimL (row.getD (i - 1) []) ≠ [] ∧ (trimL (row.getD (i - 1) [])).length < 50 then
    if 2 ≤ i ∧ extractEmail (some (row.getD (i - 2) [])) = none
        ∧ trimL (row.getD (i - 2) []) ≠ [] ∧ (trimL (row.getD (i - 2) [])).length < 50 then
      (trimL (row.getD (i - 2) []), trimL (row.getD (i - 1) []))
    else splitNameSpec (trimL (row.getD (i - 1) []))
  else ([], [])

/-- Alias-free analogue of `pushRecord`. -/
def pushRecordCore (acc : List RecordCore × Nat) (firstName lastName email : Str) :
    List RecordCore × Nat :=
  (acc.1 ++ [{ id := acc.1.length + 1, firstName := firstName, lastName := lastName,
               originalEmail := email }],
   acc.2 + 1)

/-- Alias-free analogue of `stepWH`, used to state that the header
strategy's control flow and non-alias fields do not depend on the random
draws. -/
def stepWHCore (acc : List RecordCore × Nat) (row : RowH) : List RecordCore × Nat :=
  match rowEmail row with
  | some (c :: cs) =>
      pushRecordCore acc (orEmpty (findColumn row firstNameKeys))
        (orEmpty (findColumn row lastNameKeys)) (c :: cs)
  | _ => acc

/-- Alias-free analogue of `cellsFold`. -/
def cellsFoldCore (row : RowL) (acc : List RecordCore × Nat) (i : Nat) :
    List Str → List RecordCore × Nat
  | [] => acc
  | cell :: rest =>
      match extractEmail (some cell) with
      | some (c :: cs) =>
          cellsFoldCore row
            (pushRecordCore acc (inferNames row i).1 (inferNames row i).2 (c :: cs))
            (i + 1) rest
      | _ => cellsFoldCore row acc (i + 1) rest

/-- Alias-free analogue of `stepNH`. -/
def stepNHCore (acc : List RecordCore × Nat) (row : RowL) : List RecordCore × Nat :=
  cellsFoldCore row acc 0 row

/-- A fixed draw supply used for concrete evaluations: the integer draw 0
and the empty base-36 fragment. -/
def rand0 : Rand := fun _ => (0, [])

/-- The ids of the record list are exactly `1, 2, ..., length` in output
order. -/
def idsOk (l : List Record) : Prop :=
  l.map Record.id = List.range' 1 l.length

/-- The record produced by either strategy for the single cell value
`ada@x.com` under `rand0`, used in concrete witnesses. -/
def adaRecord : Record :=
  { id := 1, firstName := [], lastName := [],
    originalEmail := "ada@x.com".toList,
    aliasEmail := "a0@cdnhyd.appen.com".toList }

/-! ### Soundness of the email matchers: every produced match passes the
anchored test -/

theorem all_takeWhile (p : Char → Bool) (l : Str) : (l.takeWhile p).all p = true := by
  induction l with
  | nil => rfl
  | cons c rest ih =>
      rw [List.takeWhile_cons]
      by_cases h : p c = true
      · simp [h, ih]
      · simp [h]

theorem emailRegexTest_nil : emailRegexTest [] = false := rfl

theorem emailRegexTest_ne_nil {e : Str} (h : emailRegexTest e = true) : e ≠ [] := by
  intro hnil
  rw [hnil, emailRegexTest_nil] at h
  exact Bool.false_ne_true h

theorem dotAlphaAt_star {r m : Str} (h : dotAlphaAt r = some m) : domainStarTail m = true := by
  cases r with
  | nil => simp [dotAlphaAt] at h
  | cons c rest =>
      rw [dotAlphaAt] at h
      by_cases hc : (c == '.' && decide (2 ≤ (rest.takeWhile isTldChar).length)) = true
      · rw [if_pos hc] at h
        rw [Option.some.injEq] at h
        subst h
        simp only [Bool.and_eq_true, beq_iff_eq, decide_eq_true_eq] at hc
        obtain ⟨hdot, hlen⟩ := hc
        subst hdot
        simp [domainStarTail, tldTail, hlen, all_takeWhile]
      · rw [if_neg hc] at h
        exact absurd h (by simp)

theorem domainMatchAux_star : ∀ {r m : Str}, domainMatchAux r = some m →
    domainStarTail m = true
  | [], m, h => by simp [domainMatchAux] at h
  | c :: rest, m, h => by
      rw [domainMatchAux] at h
      by_cases hc : isDomainChar c = true
      · rw [if_pos hc] at h
        cases haux : domainMatchAux rest with
        | some m' =>
            simp only [haux, Option.some.injEq] at h
            subst h
            simp [domainStarTail, hc, domainMatchAux_star haux]
        | none =>
            simp only [haux] at h
            exact dotAlphaAt_star h
      · rw [if_neg hc] at h
        exact dotAlphaAt_star h

theorem domainMatch_plus {r m : Str} (h : domainMatch r = some m) :
    domainPlusTail m = true := by
  cases r with
  | nil => simp [domainMatch] at h
  | cons c rest =>
      rw [domainMatch] at h
      by_cases hc : isDomainChar c = true
      · rw [if_pos hc] at h
        rw [Option.map_eq_some'] at h
        obtain ⟨m', hm', rfl⟩ := h
        simp [domainPlusTail, hc, domainMatchAux_star hm']
      · rw [if_neg hc] at h
        exact absurd h (by simp)

theorem localStarAt_append {l dm : Str} (hl : l.all isLocalChar = true)
    (hdm : domainPlusTail dm = true) : localStarAt (l ++ '@' :: dm) = true := by
  induction l with
  | nil => simp [localStarAt, hdm]
  | cons c rest ih =>
      simp only [List.all_cons, Bool.and_eq_true] at hl
      simp [localStarAt, List.cons_append, hl.1, ih hl.2]

theorem emailRegexTest_append {l dm : Str} (hne : l ≠ []) (hl : l.all isLocalChar = true)
    (hdm : domainPlusTail dm = true) : emailRegexTest (l ++ '@' :: dm) = true := by
  cases l with
  | nil => exact absurd rfl hne
  | cons c rest =>
      simp only [List.all_cons, Bool.and_eq_true] at hl
      simp [emailRegexTest, List.cons_append, hl.1, localStarAt_append hl.2 hdm]

theorem matchAt_valid {s m : Str} (h : matchAt s = some m) : emailRegexTest m = true := by
  rw [matchAt] at h
  by_cases h0 : (s.takeWhile isLocalChar).isEmpty = true
  · rw [if_pos h0] at h
    exact absurd h (by simp)
  · rw [if_neg h0] at h
    cases hd : s.drop (s.takeWhile isLocalChar).length with
    | nil => rw [hd] at h; exact absurd h (by simp)
    | cons c r2 =>
        simp only [hd] at h
        by_cases hc : (c == '@') = true
        · rw [if_pos hc] at h
          rw [Option.map_eq_some'] at h
          obtain ⟨dm, hdm, rfl⟩ := h
          exact emailRegexTest_append
            (fun hn => h0 (List.isEmpty_iff.mpr hn))
            (all_takeWhile _ _) (domainMatch_plus hdm)
        · rw [if_neg hc] at h
          exact absurd h (by simp)

theorem firstEmailMatch_valid : ∀ {s m : Str}, firstEmailMatch s = some m →
    emailRegexTest m = true
  | [], m, h => by simp [firstEmailMatch] at h
  | c :: rest, m, h => by
      rw [firstEmailMatch] at h
      cases hm : matchAt (c :: rest) with
      | some m' =>
          simp only [hm, Option.some.injEq] at h
          subst h
          exact matchAt_valid hm
      | none =>
          simp only [hm] at h
          exact firstEmailMatch_valid h

theorem extractEmail_valid {v : Option Str} {e : Str} (h : extractEmail v = some e) :
    emailRegexTest e = true := by
  cases v with
  | none => simp [extractEmail] at h
  | some s =>
      rw [extractEmail] at h
      by_cases he : s.isEmpty = true
      · rw [if_pos he] at h
        exact absurd h (by simp)
      · rw [if_neg he] at h
        by_cases ht : emailRegexTest (trimL s) = true
        · rw [if_pos ht] at h
          rw [Option.some.injEq] at h
          subst h
          exact ht
        · rw [if_neg ht] at h
          exact firstEmailMatch_valid h

theorem truthy_extractEmail_false_iff {v : Option Str} :
    truthy (extractEmail v) = false ↔ extractEmail v = none := by
  cases hv : extractEmail v with
  | none => simp [truthy]
  | some e =>
      have hne : e ≠ [] := emailRegexTest_ne_nil (extractEmail_valid hv)
      cases e with
      | nil => exact absurd rfl hne
      | cons c cs => simp [truthy]

/-! ### Records produced by the strategies carry extraction results -/

theorem scanRowForEmail_from_extract : ∀ {row : RowH} {e : Str},
    scanRowForEmail row = some e → ∃ v, extractEmail v = some e
  | [], e, h => by simp [scanRowForEmail] at h
  | (k, v) :: rest, e, h => by
      rw [scanRowForEmail] at h
      by_cases ht : truthy (extractEmail (some v)) = true
      · rw [if_pos ht] at h
        exact ⟨some v, h⟩
      · rw [if_neg ht] at h
        exact scanRowForEmail_from_extract h

theorem rowEmail_from_extract {row : RowH} {e : Str} (h : rowEmail row = some e) :
    ∃ v, extractEmail v = some e := by
  rw [rowEmail] at h
  by_cases ht : truthy (findColumn row emailKeys) = true
  · rw [if_pos ht] at h
    exact ⟨findColumn row emailKeys, h⟩
  · rw [if_neg ht] at h
    exact scanRowForEmail_from_extract h

theorem truthy_cases (o : Option Str) :
    truthy o = false ∨ ∃ c cs, o = some (c :: cs) := by
  match o with
  | none => exact Or.inl rfl
  | some [] => exact Or.inl rfl
  | some (c :: cs) => exact Or.inr ⟨c, cs, rfl⟩

theorem stepWH_push (rand : Rand) (acc : List Record × Nat) (row : RowH) {c : Char}
    {cs : Str} (h : rowEmail row = some (c :: cs)) :
    stepWH rand acc row = pushRecord acc (orEmpty (findColumn row firstNameKeys))
      (orEmpty (findColumn row lastNameKeys)) (c :: cs) (rand acc.1.length) := by
  rw [stepWH, h]

theorem stepWH_skip (rand : Rand) (acc : List Record × Nat) (row : RowH)
    (h : truthy (rowEmail row) = false) : stepWH rand acc row = acc := by
  rw [stepWH]
  cases hre : rowEmail row with
  | none => rfl
  | some e =>
      cases e with
      | nil => rfl
      | cons c cs =>
          rw [hre] at h
          simp [truthy] at h

theorem cellsFold_nil (rand : Rand) (row : RowL) (acc : List Record × Nat) (i : Nat) :
    cellsFold rand row acc i [] = acc := rfl

theorem cellsFold_push (rand : Rand) (row : RowL) (acc : List Record × Nat) (i : Nat)
    (cell : Str) (cells : List Str) {c : Char} {cs : Str}
    (h : extractEmail (some cell) = some (c :: cs)) :
    cellsFold rand row acc i (cell :: cells) =
      cellsFold rand row
        (pushRecord acc (inferNames row i).1 (inferNames row i).2 (c :: cs)
          (rand acc.1.length)) (i + 1) cells := by
  rw [cellsFold, h]

theorem cellsFold_skip (rand : Rand) (row : RowL) (acc : List Record × Nat) (i : Nat)
    (cell : Str) (cells : List Str) (h : truthy (extractEmail (some cell)) = false) :
    cellsFold rand row acc i (cell :: cells) = cellsFold rand row acc (i + 1) cells := by
  rw [cellsFold]
  cases hx : extractEmail (some cell) with
  | none => rfl
  | some e =>
      cases e with
      | nil => rfl
      | cons c cs =>
          rw [hx] at h
          simp [truthy] at h

theorem pushRecord_fst_length (acc : List Record × Nat) (fn ln e : Str)
    (d : Nat × Str) : (pushRecord acc fn ln e d).1.length = acc.1.length + 1 := by
  simp [pushRecord]

theorem pushRecord_snd (acc : List Record × Nat) (fn ln e : Str) (d : Nat × Str) :
    (pushRecord acc fn ln e d).2 = acc.2 + 1 := rfl

theorem pushRecord_mem {acc : List Record × Nat} {fn ln e : Str} {d : Nat × Str}
    {r : Record} (h : r ∈ (pushRecord acc fn ln e d).1) :
    r ∈ acc.1 ∨ r.originalEmail = e := by
  rw [pushRecord] at h
  rcases List.mem_append.mp h with h | h
  · exact Or.inl h
  · simp only [List.mem_singleton] at h
    subst h
    exact Or.inr rfl

theorem pushRecord_ids {acc : List Record × Nat} (fn ln e : Str) (d : Nat × Str)
    (h : idsOk acc.1) : idsOk (pushRecord acc fn ln e d).1 := by
  rw [idsOk] at h ⊢
  rw [pushRecord]
  simp only [List.map_append, List.length_append, List.map_cons, List.map_nil,
    List.length_cons, List.length_nil]
  rw [h, List.range'_concat]
  simp [Nat.add_comm]

theorem stepWH_preserves (rand : Rand) (acc : List Record × Nat) (row : RowH)
    (hacc : ∀ r ∈ acc.1, r.originalEmail ≠ [] ∧ emailRegexTest r.originalEmail = true) :
    ∀ r ∈ (stepWH rand acc row).1,
      r.originalEmail ≠ [] ∧ emailRegexTest r.originalEmail = true := by
  intro r hr
  rcases truthy_cases (rowEmail row) with h | ⟨c, cs, h⟩
  · rw [stepWH_skip rand acc row h] at hr
    exact hacc r hr
  · rw [stepWH_push rand acc row h] at hr
    rcases pushRecord_mem hr with hmem | hmem
    · exact hacc r hmem
    · obtain ⟨v, hv⟩ := rowEmail_from_extract h
      have hvalid := extractEmail_valid hv
      rw [hmem]
      exact ⟨emailRegexTest_ne_nil hvalid, hvalid⟩

theorem foldl_stepWH_preserves (rand : Rand) : ∀ (data : List RowH)
    (acc : List Record × Nat),
    (∀ r ∈ acc.1, r.originalEmail ≠ [] ∧ emailRegexTest r.originalEmail = true) →
    ∀ r ∈ (data.foldl (stepWH rand) acc).1,
      r.originalEmail ≠ [] ∧ emailRegexTest r.originalEmail = true
  | [], acc, hacc => by simpa using hacc
  | row :: rest, acc, hacc => by
      rw [List.foldl_cons]
      exact foldl_stepWH_preserves rand rest _ (stepWH_preserves rand acc row hacc)

theorem cellsFold_preserves (rand : Rand) (row : RowL) : ∀ (cells : List Str) (i : Nat)
    (acc : List Record × Nat),
    (∀ r ∈ acc.1, r.originalEmail ≠ [] ∧ emailRegexTest r.originalEmail = true) →
    ∀ r ∈ (cellsFold rand row acc i cells).1,
      r.originalEmail ≠ [] ∧ emailRegexTest r.originalEmail = true
  | [], i, acc, hacc => by simpa [cellsFold_nil] using hacc
  | cell :: rest, i, acc, hacc => by
      rcases truthy_cases (extractEmail (some cell)) with h | ⟨c, cs, h⟩
      · rw [cellsFold_skip rand row acc i cell rest h]
        exact cellsFold_preserves rand row rest (i + 1) acc hacc
      · rw [cellsFold_push rand row acc i cell rest h]
        refine cellsFold_preserves rand row rest (i + 1) _ ?_
        intro r hr
        rcases pushRecord_mem hr with hmem | hmem
        · exact hacc r hmem
        · have hvalid := extractEmail_valid h
          rw [hmem]
          exact ⟨emailRegexTest_ne_nil hvalid, hvalid⟩

theorem foldl_stepNH_preserves (rand : Rand) : ∀ (data : List RowL)
    (acc : List Record × Nat),
    (∀ r ∈ acc.1, r.originalEmail ≠ [] ∧ emailRegexTest r.originalEmail = true) →
    ∀ r ∈ (data.foldl (stepNH rand) acc).1,
      r.originalEmail ≠ [] ∧ emailRegexTest r.originalEmail = true
  | [], acc, hacc => by simpa using hacc
  | row :: rest, acc, hacc => by
      rw [List.foldl_cons]
      exact foldl_stepNH_preserves rand rest _
        (cellsFold_preserves rand row row 0 acc hacc)

/-- Claim C1: for every input table processed by either extraction
strategy, every emitted record has a non-empty `originalEmail` that passes
the anchored email pattern test; a row or cell with no resolvable email
contributes no record (records only arise from successful extraction), so
a record is never emitted with an empty `originalEmail`. -/
theorem c1_records_valid_email (rand : Rand) (rowsH : List RowH) (rowsNH : List RowL) :
    (∀ l, processWithHeaders rand rowsH = .success l →
      ∀ r ∈ l, r.originalEmail ≠ [] ∧ emailRegexTest r.originalEmail = true) ∧
    (∀ l, processWithoutHeaders rand rowsNH = .success l →
      ∀ r ∈ l, r.originalEmail ≠ [] ∧ emailRegexTest r.originalEmail = true) := by
  constructor
  · intro l hl
    rw [processWithHeaders] at hl
    by_cases h0 : (rowsH.filter nonEmptyRowH).isEmpty = true
    · rw [if_pos h0] at hl
      exact absurd hl (by simp)
    · rw [if_neg h0] at hl
      by_cases h1 : ((rowsH.filter nonEmptyRowH).foldl (stepWH rand) ([], 0)).2 = 0
      · rw [if_pos h1] at hl
        exact absurd hl (by simp)
      · rw [if_neg h1] at hl
        rw [ProcessResult.success.injEq] at hl
        subst hl
        exact foldl_stepWH_preserves rand _ _ (by intro r hr; exact absurd hr (by simp))
  · intro l hl
    rw [processWithoutHeaders] at hl
    by_cases h0 : (rowsNH.filter nonEmptyRowL).isEmpty = true
    · rw [if_pos h0] at hl
      exact absurd hl (by simp)
    · rw [if_neg h0] at hl
      by_cases h1 : ((rowsNH.filter nonEmptyRowL).foldl (stepNH rand) ([], 0)).2 = 0
      · rw [if_pos h1] at hl
        exact absurd hl (by simp)
      · rw [if_neg h1] at hl
        rw [ProcessResult.success.injEq] at hl
        subst hl
        exact foldl_stepNH_preserves rand _ _ (by intro r hr; exact absurd hr (by simp))

/-- Witness for C1: a concrete successful run of each strategy, with the
conclusion instantiated at the single emitted record. -/
theorem c1_witness :
    (processWithHeaders rand0 [[("Email".toList, "ada@x.com".toList)]] =
      .success [adaRecord]) ∧
    (adaRecord.originalEmail ≠ [] ∧ emailRegexTest adaRecord.originalEmail = true) := by
  refine ⟨by decide, ?_⟩
  exact (c1_records_valid_email rand0 [[("Email".toList, "ada@x.com".toList)]] []).1
    [adaRecord] (by decide) adaRecord (by simp)

/-! ### The unanchored search returns a substring, and misses nothing -/

theorem dotAlphaAt_append {r m : Str} (h : dotAlphaAt r = some m) : ∃ t, r = m ++ t := by
  cases r with
  | nil => simp [dotAlphaAt] at h
  | cons c rest =>
      rw [dotAlphaAt] at h
      by_cases hc : (c == '.' && decide (2 ≤ (rest.takeWhile isTldChar).length)) = true
      · rw [if_pos hc] at h
        rw [Option.some.injEq] at h
        subst h
        exact ⟨rest.dropWhile isTldChar,
          by rw [List.cons_append, List.takeWhile_append_dropWhile]⟩
      · rw [if_neg hc] at h
        exact absurd h (by simp)

theorem domainMatchAux_append : ∀ {r m : Str}, domainMatchAux r = some m → ∃ t, r = m ++ t
  | [], m, h => by simp [domainMatchAux] at h
  | c :: rest, m, h => by
      rw [domainMatchAux] at h
      by_cases hc : isDomainChar c = true
      · rw [if_pos hc] at h
        cases haux : domainMatchAux rest with
        | some m' =>
            simp only [haux, Option.some.injEq] at h
            subst h
            obtain ⟨t, ht⟩ := domainMatchAux_append haux
            exact ⟨t, by rw [List.cons_append, ht]⟩
        | none =>
            simp only [haux] at h
            exact dotAlphaAt_append h
      · rw [if_neg hc] at h
        exact dotAlphaAt_append h

theorem domainMatch_append {r m : Str} (h : domainMatch r = some m) : ∃ t, r = m ++ t := by
  cases r with
  | nil => simp [domainMatch] at h
  | cons c rest =>
      rw [domainMatch] at h
      by_cases hc : isDomainChar c = true
      · rw [if_pos hc] at h
        rw [Option.map_eq_some'] at h
        obtain ⟨m', hm', rfl⟩ := h
        obtain ⟨t, ht⟩ := domainMatchAux_append hm'
        exact ⟨t, by rw [List.cons_append, ht]⟩
      · rw [if_neg hc] at h
        exact absurd h (by simp)

theorem drop_takeWhile_length (p : Char → Bool) (s : Str) :
    s.drop (s.takeWhile p).length = s.dropWhile p := by
  induction s with
  | nil => rfl
  | cons c rest ih =>
      rw [List.takeWhile_cons, List.dropWhile_cons]
      by_cases h : p c = true
      · simp [h, ih]
      · simp [h]

theorem takeWhile_append_drop_self (p : Char → Bool) (s : Str) :
    s = s.takeWhile p ++ s.drop (s.takeWhile p).length := by
  rw [drop_takeWhile_length, List.takeWhile_append_dropWhile]

theorem matchAt_append {s m : Str} (h : matchAt s = some m) : ∃ t, s = m ++ t := by
  rw [matchAt] at h
  by_cases h0 : (s.takeWhile isLocalChar).isEmpty = true
  · rw [if_pos h0] at h
    exact absurd h (by simp)
  · rw [if_neg h0] at h
    cases hd : s.drop (s.takeWhile isLocalChar).length with
    | nil => rw [hd] at h; exact absurd h (by simp)
    | cons c r2 =>
        simp only [hd] at h
        by_cases hc : (c == '@') = true
        · rw [if_pos hc] at h
          rw [Option.map_eq_some'] at h
          obtain ⟨dm, hdm, rfl⟩ := h
          obtain ⟨t, ht⟩ := domainMatch_append hdm
          rw [beq_iff_eq] at hc
          subst hc
          have hs := takeWhile_append_drop_self isLocalChar s
          rw [hd] at hs
          refine ⟨t, ?_⟩
          calc s = s.takeWhile isLocalChar ++ '@' :: r2 := hs
            _ = s.takeWhile isLocalChar ++ '@' :: (dm ++ t) := by rw [ht]
            _ = (s.takeWhile isLocalChar ++ '@' :: dm) ++ t := by
                simp [List.append_assoc]
        · rw [if_neg hc] at h
          exact absurd h (by simp)

theorem firstEmailMatch_occurs : ∀ {s m : Str}, firstEmailMatch s = some m →
    ∃ pre t, s = pre ++ (m ++ t)
  | [], m, h => by simp [firstEmailMatch] at h
  | c :: rest, m, h => by
      rw [firstEmailMatch] at h
      cases hm : matchAt (c :: rest) with
      | some m' =>
          simp only [hm, Option.some.injEq] at h
          subst h
          obtain ⟨t, ht⟩ := matchAt_append hm
          exact ⟨[], t, by rw [List.nil_append, ht]⟩
      | none =>
          simp only [hm] at h
          obtain ⟨pre, t, ht⟩ := firstEmailMatch_occurs h
          exact ⟨c :: pre, t, by rw [ht, List.cons_append]⟩

theorem tldTail_decomp {a : Str} (h : tldTail a = true) :
    a.all isTldChar = true ∧ 2 ≤ a.length := by
  rw [tldTail, Bool.and_eq_true, decide_eq_true_eq] at h
  exact ⟨h.2, h.1⟩

theorem domainStarTail_decomp : ∀ {r : Str}, domainStarTail r = true →
    ∃ d a, r = d ++ '.' :: a ∧ d.all isDomainChar = true ∧
      a.all isTldChar = true ∧ 2 ≤ a.length
  | c :: rest, h => by
      rw [domainStarTail, Bool.or_eq_true, Bool.and_eq_true, Bool.and_eq_true] at h
      rcases h with ⟨hdot, htld⟩ | ⟨hdom, hstar⟩
      · rw [beq_iff_eq] at hdot
        subst hdot
        obtain ⟨hall, hlen⟩ := tldTail_decomp htld
        exact ⟨[], rest, rfl, rfl, hall, hlen⟩
      · obtain ⟨d, a, hr, hd, ha, hlen⟩ := domainStarTail_decomp hstar
        exact ⟨c :: d, a, by rw [hr, List.cons_append],
          by simp [List.all_cons, hdom, hd], ha, hlen⟩

theorem domainPlusTail_decomp {r : Str} (h : domainPlusTail r = true) :
    ∃ d a, r = d ++ '.' :: a ∧ d ≠ [] ∧ d.all isDomainChar = true ∧
      a.all isTldChar = true ∧ 2 ≤ a.length := by
  cases r with
  | nil => simp [domainPlusTail] at h
  | cons c rest =>
      rw [domainPlusTail, Bool.and_eq_true] at h
      obtain ⟨hdom, hstar⟩ := h
      obtain ⟨d, a, hr, hd, ha, hlen⟩ := domainStarTail_decomp hstar
      exact ⟨c :: d, a, by rw [hr, List.cons_append], by simp,
        by simp [List.all_cons, hdom, hd], ha, hlen⟩

theorem localStarAt_decomp : ∀ {r : Str}, localStarAt r = true →
    ∃ l dm, r = l ++ '@' :: dm ∧ l.all isLocalChar = true ∧ domainPlusTail dm = true
  | c :: rest, h => by
      rw [localStarAt, Bool.or_eq_true, Bool.and_eq_true, Bool.and_eq_true] at h
      rcases h with ⟨hat, hplus⟩ | ⟨hloc, hstar⟩
      · rw [beq_iff_eq] at hat
        subst hat
        exact ⟨[], rest, rfl, rfl, hplus⟩
      · obtain ⟨l, dm, hr, hl, hdm⟩ := localStarAt_decomp hstar
        exact ⟨c :: l, dm, by rw [hr, List.cons_append],
          by simp [List.all_cons, hloc, hl], hdm⟩

theorem emailRegexTest_decomp {e : Str} (h : emailRegexTest e = true) :
    ∃ l dm, e = l ++ '@' :: dm ∧ l ≠ [] ∧ l.all isLocalChar = true ∧
      domainPlusTail dm = true := by
  cases e with
  | nil => simp [emailRegexTest] at h
  | cons c rest =>
      rw [emailRegexTest, Bool.and_eq_true] at h
      obtain ⟨hloc, hstar⟩ := h
      obtain ⟨l, dm, hr, hl, hdm⟩ := localStarAt_decomp hstar
      exact ⟨c :: l, dm, by rw [hr, List.cons_append], by simp,
        by simp [List.all_cons, hloc, hl], hdm⟩

theorem domainMatchAux_isSome : ∀ (d : Str) {rest' : Str},
    d.all isDomainChar = true → 2 ≤ (rest'.takeWhile isTldChar).length →
    domainMatchAux (d ++ '.' :: rest') ≠ none
  | [], rest', _, hlen => by
      rw [List.nil_append, domainMatchAux]
      rw [if_pos (by decide : isDomainChar '.' = true)]
      cases haux : domainMatchAux rest' with
      | some m => simp
      | none =>
          simp only
          rw [dotAlphaAt]
          rw [if_pos (by simp [hlen])]
          simp
  | c :: d, rest', hall, hlen => by
      rw [List.cons_append, domainMatchAux]
      simp only [List.all_cons, Bool.and_eq_true] at hall
      rw [if_pos hall.1]
      cases haux : domainMatchAux (d ++ '.' :: rest') with
      | some m => simp
      | none => exact absurd haux (domainMatchAux_isSome d hall.2 hlen)

theorem matchAt_isSome {l d a suffix : Str} (hlne : l ≠ [])
    (hl : l.all isLocalChar = true) (hdne : d ≠ []) (hd : d.all isDomainChar = true)
    (ha : a.all isTldChar = true) (hlen : 2 ≤ a.length) :
    matchAt (l ++ '@' :: (d ++ '.' :: (a ++ suffix))) ≠ none := by
  have htw : (l ++ '@' :: (d ++ '.' :: (a ++ suffix))).takeWhile isLocalChar = l := by
    rw [List.takeWhile_append]
    rw [List.takeWhile_eq_self_iff.mpr (List.all_eq_true.mp hl)]
    rw [if_pos rfl]
    rw [List.takeWhile_cons]
    rw [if_neg (by decide : ¬ (isLocalChar '@' = true))]
    rw [List.append_nil]
  have hdrop : (l ++ '@' :: (d ++ '.' :: (a ++ suffix))).drop l.length =
      '@' :: (d ++ '.' :: (a ++ suffix)) := List.drop_left l _
  rw [matchAt, htw, hdrop]
  rw [if_neg (by simpa [List.isEmpty_iff] using hlne)]
  simp only [beq_self_eq_true, if_true]
  cases d with
  | nil => exact absurd rfl hdne
  | cons c dtail =>
      simp only [List.all_cons, Bool.and_eq_true] at hd
      rw [List.cons_append, domainMatch]
      rw [if_pos hd.1]
      have hlen2 : 2 ≤ ((a ++ suffix).takeWhile isTldChar).length := by
        rw [List.takeWhile_append]
        rw [List.takeWhile_eq_self_iff.mpr (List.all_eq_true.mp ha)]
        rw [if_pos rfl, List.length_append]
        omega
      cases haux : domainMatchAux (dtail ++ '.' :: (a ++ suffix)) with
      | some m => simp
      | none => exact absurd haux (domainMatchAux_isSome dtail hd.2 hlen2)

theorem matchAt_nil : matchAt [] = none := by
  decide

theorem firstEmailMatch_none_drop : ∀ {s : Str}, firstEmailMatch s = none →
    ∀ n, matchAt (s.drop n) = none
  | [], _, n => by rw [List.drop_nil]; exact matchAt_nil
  | c :: rest, h, n => by
      rw [firstEmailMatch] at h
      cases hm : matchAt (c :: rest) with
      | some m => simp [hm] at h
      | none =>
          simp only [hm] at h
          cases n with
          | zero => exact hm
          | succ k =>
              rw [List.drop_succ_cons]
              exact firstEmailMatch_none_drop h k

theorem firstEmailMatch_none_no_occurrence {s e pre t : Str}
    (h : firstEmailMatch s = none) (heq : s = pre ++ (e ++ t))
    (he : emailRegexTest e = true) : False := by
  obtain ⟨l, dm, hedec, hlne, hl, hdm⟩ := emailRegexTest_decomp he
  obtain ⟨d, a, hdmdec, hdne, hd, ha, hlen⟩ := domainPlusTail_decomp hdm
  have hdropped : s.drop pre.length = e ++ t := by
    rw [heq]
    exact List.drop_left pre _
  have hshape : e ++ t = l ++ '@' :: (d ++ '.' :: (a ++ t)) := by
    rw [hedec, hdmdec]
    simp [List.append_assoc]
  have := firstEmailMatch_none_drop h pre.length
  rw [hdropped, hshape] at this
  exact matchAt_isSome hlne hl hdne hd ha hlen this

/-- Claim C5: `extractEmail` is absent on falsy input; otherwise the value
is trimmed, returned verbatim when the whole trimmed string passes the
anchored test, and otherwise the first substring matching the unanchored
email pattern is returned when one exists, absence meaning that no
substring of the trimmed value matches the pattern. -/
theorem c5_extract_email (v : Str) :
    extractEmail none = none ∧
    extractEmail (some []) = none ∧
    (v ≠ [] →
      extractEmail (some v) =
        (if emailRegexTest (trimL v) = true then some (trimL v)
         else firstEmailMatch (trimL v)) ∧
      (∀ e, extractEmail (some v) = some e →
        (∃ pre t, trimL v = pre ++ (e ++ t)) ∧ emailRegexTest e = true) ∧
      (extractEmail (some v) = none →
        ∀ e pre t, trimL v = pre ++ (e ++ t) → emailRegexTest e = false)) := by
  refine ⟨rfl, by simp [extractEmail], fun hv => ?_⟩
  have hne : (v.isEmpty = true) = False := by
    simp [List.isEmpty_iff, hv]
  have hunfold : extractEmail (some v) =
      (if emailRegexTest (trimL v) = true then some (trimL v)
       else firstEmailMatch (trimL v)) := by
    rw [extractEmail, if_neg (by simp [List.isEmpty_iff, hv])]
  refine ⟨hunfold, fun e he => ?_, fun h0 e pre t heq => ?_⟩
  · rw [hunfold] at he
    by_cases ht : emailRegexTest (trimL v) = true
    · rw [if_pos ht] at he
      rw [Option.some.injEq] at he
      subst he
      exact ⟨⟨[], [], by simp⟩, ht⟩
    · rw [if_neg ht] at he
      exact ⟨firstEmailMatch_occurs he, firstEmailMatch_valid he⟩
  · rw [hunfold] at h0
    by_cases ht : emailRegexTest (trimL v) = true
    · rw [if_pos ht] at h0
      exact absurd h0 (by simp)
    · rw [if_neg ht] at h0
      by_contra hcon
      rw [Bool.not_eq_false] at hcon
      exact firstEmailMatch_none_no_occurrence h0 heq hcon

/-- Witness for C5: a concrete non-empty value containing an embedded
email, on which the characterization is instantiated. -/
theorem c5_witness :
    ("Contact: a@b.com".toList ≠ []) ∧
    extractEmail (some ("Contact: a@b.com".toList)) =
      (if emailRegexTest (trimL ("Contact: a@b.com".toList)) = true
       then some (trimL ("Contact: a@b.com".toList))
       else firstEmailMatch (trimL ("Contact: a@b.com".toList))) := by
  refine ⟨by decide, ?_⟩
  exact ((c5_extract_email ("Contact: a@b.com".toList)).2.2 (by decide)).1

/-! ### Counting: the emailsFound counter, record count, and ids -/

theorem stepWH_count (rand : Rand) (acc : List Record × Nat) (row : RowH) :
    (stepWH rand acc row).1.length + acc.2 = (stepWH rand acc row).2 + acc.1.length := by
  rcases truthy_cases (rowEmail row) with h | ⟨c, cs, h⟩
  · rw [stepWH_skip rand acc row h]
    omega
  · rw [stepWH_push rand acc row h, pushRecord_fst_length, pushRecord_snd]
    omega

theorem foldl_stepWH_count (rand : Rand) : ∀ (data : List RowH) (acc : List Record × Nat),
    (data.foldl (stepWH rand) acc).1.length + acc.2 =
      (data.foldl (stepWH rand) acc).2 + acc.1.length
  | [], acc => by
      rw [List.foldl_nil]
      omega
  | row :: rest, acc => by
      rw [List.foldl_cons]
      have h1 := stepWH_count rand acc row
      have h2 := foldl_stepWH_count rand rest (stepWH rand acc row)
      omega

theorem stepWH_snd_le (rand : Rand) (acc : List Record × Nat) (row : RowH) :
    acc.2 ≤ (stepWH rand acc row).2 := by
  rcases truthy_cases (rowEmail row) with h | ⟨c, cs, h⟩
  · rw [stepWH_skip rand acc row h]
  · rw [stepWH_push rand acc row h, pushRecord_snd]
    omega

theorem foldl_stepWH_snd_le (rand : Rand) : ∀ (data : List RowH) (acc : List Record × Nat),
    acc.2 ≤ (data.foldl (stepWH rand) acc).2
  | [], acc => Nat.le_refl _
  | row :: rest, acc => by
      rw [List.foldl_cons]
      exact Nat.le_trans (stepWH_snd_le rand acc row)
        (foldl_stepWH_snd_le rand rest (stepWH rand acc row))

theorem stepWH_snd_eq_iff (rand : Rand) (acc : List Record × Nat) (row : RowH) :
    (stepWH rand acc row).2 = acc.2 ↔ truthy (rowEmail row) = false := by
  rcases truthy_cases (rowEmail row) with h | ⟨c, cs, h⟩
  · rw [stepWH_skip rand acc row h]
    simp [h]
  · rw [stepWH_push rand acc row h, pushRecord_snd, h]
    simp [truthy]

theorem foldl_stepWH_snd_eq_iff (rand : Rand) : ∀ (data : List RowH)
    (acc : List Record × Nat),
    ((data.foldl (stepWH rand) acc).2 = acc.2 ↔
      ∀ row ∈ data, truthy (rowEmail row) = false)
  | [], acc => by simp
  | row :: rest, acc => by
      rw [List.foldl_cons]
      constructor
      · intro h
        have hle1 := stepWH_snd_le rand acc row
        have hle2 := foldl_stepWH_snd_le rand rest (stepWH rand acc row)
        have hstep : (stepWH rand acc row).2 = acc.2 := by omega
        intro r hr
        rcases List.mem_cons.mp hr with hr | hr
        · subst hr
          exact (stepWH_snd_eq_iff rand acc r).mp hstep
        · refine ((foldl_stepWH_snd_eq_iff rand rest (stepWH rand acc row)).mp ?_) r hr
          omega
      · intro h
        rw [stepWH_skip rand acc row (h row (List.mem_cons_self row rest))]
        exact (foldl_stepWH_snd_eq_iff rand rest acc).mpr
          (fun r hr => h r (List.mem_cons_of_mem row hr))

theorem stepWH_ids (rand : Rand) (acc : List Record × Nat) (row : RowH)
    (h : idsOk acc.1) : idsOk (stepWH rand acc row).1 := by
  rcases truthy_cases (rowEmail row) with hre | ⟨c, cs, hre⟩
  · rw [stepWH_skip rand acc row hre]
    exact h
  · rw [stepWH_push rand acc row hre]
    exact pushRecord_ids _ _ _ _ h

theorem foldl_stepWH_ids (rand : Rand) : ∀ (data : List RowH) (acc : List Record × Nat),
    idsOk acc.1 → idsOk ((data.foldl (stepWH rand) acc).1)
  | [], acc, h => h
  | row :: rest, acc, h => by
      rw [List.foldl_cons]
      exact foldl_stepWH_ids rand rest _ (stepWH_ids rand acc row h)

theorem cellsFold_count (rand : Rand) (row : RowL) : ∀ (cells : List Str) (i : Nat)
    (acc : List Record × Nat),
    (cellsFold rand row acc i cells).1.length + acc.2 =
      (cellsFold rand row acc i cells).2 + acc.1.length
  | [], i, acc => by
      rw [cellsFold_nil]
      omega
  | cell :: rest, i, acc => by
      rcases truthy_cases (extractEmail (some cell)) with h | ⟨c, cs, h⟩
      · rw [cellsFold_skip rand row acc i cell rest h]
        exact cellsFold_count rand row rest (i + 1) acc
      · rw [cellsFold_push rand row acc i cell rest h]
        have h2 := cellsFold_count rand row rest (i + 1)
          (pushRecord acc (inferNames row i).1 (inferNames row i).2 (c :: cs)
            (rand acc.1.length))
        rw [pushRecord_fst_length, pushRecord_snd] at h2
        omega

theorem cellsFold_snd_le (rand : Rand) (row : RowL) : ∀ (cells : List Str) (i : Nat)
    (acc : List Record × Nat), acc.2 ≤ (cellsFold rand row acc i cells).2
  | [], i, acc => Nat.le_refl _
  | cell :: rest, i, acc => by
      rcases truthy_cases (extractEmail (some cell)) with h | ⟨c, cs, h⟩
      · rw [cellsFold_skip rand row acc i cell rest h]
        exact cellsFold_snd_le rand row rest (i + 1) acc
      · rw [cellsFold_push rand row acc i cell rest h]
        have h2 := cellsFold_snd_le rand row rest (i + 1)
          (pushRecord acc (inferNames row i).1 (inferNames row i).2 (c :: cs)
            (rand acc.1.length))
        rw [pushRecord_snd] at h2
        omega

theorem cellsFold_eq_acc (rand : Rand) (row : RowL) : ∀ (cells : List Str) (i : Nat)
    (acc : List Record × Nat),
    (∀ cell ∈ cells, truthy (extractEmail (some cell)) = false) →
    cellsFold rand row acc i cells = acc
  | [], i, acc, _ => rfl
  | cell :: rest, i, acc, h => by
      rw [cellsFold_skip rand row acc i cell rest (h cell (List.mem_cons_self cell rest))]
      exact cellsFold_eq_acc rand row rest (i + 1) acc
        (fun c hc => h c (List.mem_cons_of_mem cell hc))

theorem cellsFold_snd_eq_iff (rand : Rand) (row : RowL) : ∀ (cells : List Str) (i : Nat)
    (acc : List Record × Nat),
    ((cellsFold rand row acc i cells).2 = acc.2 ↔
      ∀ cell ∈ cells, truthy (extractEmail (some cell)) = false)
  | [], i, acc => by simp [cellsFold_nil]
  | cell :: rest, i, acc => by
      rcases truthy_cases (extractEmail (some cell)) with h | ⟨c, cs, h⟩
      · rw [cellsFold_skip rand row acc i cell rest h,
          cellsFold_snd_eq_iff rand row rest (i + 1) acc]
        constructor
        · intro hall c' hc'
          rcases List.mem_cons.mp hc' with hc' | hc'
          · subst hc'
            exact h
          · exact hall c' hc'
        · intro hall c' hc'
          exact hall c' (List.mem_cons_of_mem cell hc')
      · rw [cellsFold_push rand row acc i cell rest h]
        constructor
        · intro hfold
          exfalso
          have hle := cellsFold_snd_le rand row rest (i + 1)
            (pushRecord acc (inferNames row i).1 (inferNames row i).2 (c :: cs)
              (rand acc.1.length))
          rw [pushRecord_snd] at hle
          omega
        · intro hall
          have hx := hall cell (List.mem_cons_self cell rest)
          rw [h] at hx
          simp [truthy] at hx

theorem cellsFold_ids (rand : Rand) (row : RowL) : ∀ (cells : List Str) (i : Nat)
    (acc : List Record × Nat), idsOk acc.1 → idsOk (cellsFold rand row acc i cells).1
  | [], i, acc, h => h
  | cell :: rest, i, acc, h => by
      rcases truthy_cases (extractEmail (some cell)) with hx | ⟨c, cs, hx⟩
      · rw [cellsFold_skip rand row acc i cell rest hx]
        exact cellsFold_ids rand row rest (i + 1) acc h
      · rw [cellsFold_push rand row acc i cell rest hx]
        exact cellsFold_ids rand row rest (i + 1) _ (pushRecord_ids _ _ _ _ h)

theorem foldl_stepNH_count (rand : Rand) : ∀ (data : List RowL) (acc : List Record × Nat),
    (data.foldl (stepNH rand) acc).1.length + acc.2 =
      (data.foldl (stepNH rand) acc).2 + acc.1.length
  | [], acc => by
      rw [List.foldl_nil]
      omega
  | row :: rest, acc => by
      rw [List.foldl_cons]
      have h1 := cellsFold_count rand row row 0 acc
      have h2 := foldl_stepNH_count rand rest (stepNH rand acc row)
      rw [stepNH] at h2 ⊢
      omega

theorem foldl_stepNH_snd_le (rand : Rand) : ∀ (data : List RowL) (acc : List Record × Nat),
    acc.2 ≤ (data.foldl (stepNH rand) acc).2
  | [], acc => Nat.le_refl _
  | row :: rest, acc => by
      rw [List.foldl_cons]
      exact Nat.le_trans (by rw [stepNH]; exact cellsFold_snd_le rand row row 0 acc)
        (foldl_stepNH_snd_le rand rest (stepNH rand acc row))

theorem foldl_stepNH_snd_eq_iff (rand : Rand) : ∀ (data : List RowL)
    (acc : List Record × Nat),
    ((data.foldl (stepNH rand) acc).2 = acc.2 ↔
      ∀ row ∈ data, ∀ cell ∈ row, truthy (extractEmail (some cell)) = false)
  | [], acc => by simp
  | row :: rest, acc => by
      rw [List.foldl_cons]
      constructor
      · intro h
        have hle1 : acc.2 ≤ (stepNH rand acc row).2 := by
          rw [stepNH]
          exact cellsFold_snd_le rand row row 0 acc
        have hle2 := foldl_stepNH_snd_le rand rest (stepNH rand acc row)
        have hstep : (stepNH rand acc row).2 = acc.2 := by omega
        intro r hr
        rcases List.mem_cons.mp hr with hr | hr
        · subst hr
          rw [stepNH] at hstep
          exact (cellsFold_snd_eq_iff rand r r 0 acc).mp hstep
        · refine ((foldl_stepNH_snd_eq_iff rand rest (stepNH rand acc row)).mp ?_) r hr
          omega
      · intro h
        have hstep : stepNH rand acc row = acc := by
          rw [stepNH]
          exact cellsFold_eq_acc rand row row 0 acc (h row (List.mem_cons_self row rest))
        rw [hstep]
        exact (foldl_stepNH_snd_eq_iff rand rest acc).mpr
          (fun r hr => h r (List.mem_cons_of_mem row hr))

theorem foldl_stepNH_ids (rand : Rand) : ∀ (data : List RowL) (acc : List Record × Nat),
    idsOk acc.1 → idsOk ((data.foldl (stepNH rand) acc).1)
  | [], acc, h => h
  | row :: rest, acc, h => by
      rw [List.foldl_cons]
      refine foldl_stepNH_ids rand rest _ ?_
      rw [stepNH]
      exact cellsFold_ids rand row row 0 acc h

/-- Claim C10: in both strategies the `emailsFound` counter is incremented
exactly when a record is appended, so the final counter equals the number
of records produced; `NoEmailsFound` is reported exactly when rows remain
but the produced record list is empty; on success the result is the
produced list, whose length equals the counter, with ids exactly
`1..N` in output order. -/
theorem c10_counter_records (rand : Rand) (rowsH : List RowH) (rowsNH : List RowL) :
    (((rowsH.filter nonEmptyRowH).foldl (stepWH rand) ([], 0)).2 =
      ((rowsH.filter nonEmptyRowH).foldl (stepWH rand) ([], 0)).1.length) ∧
    (processWithHeaders rand rowsH = .noEmailsFound ↔
      rowsH.filter nonEmptyRowH ≠ [] ∧
      ((rowsH.filter nonEmptyRowH).foldl (stepWH rand) ([], 0)).1 = []) ∧
    (∀ l, processWithHeaders rand rowsH = .success l →
      l = ((rowsH.filter nonEmptyRowH).foldl (stepWH rand) ([], 0)).1 ∧
      ((rowsH.filter nonEmptyRowH).foldl (stepWH rand) ([], 0)).2 = l.length ∧
      idsOk l) ∧
    (((rowsNH.filter nonEmptyRowL).foldl (stepNH rand) ([], 0)).2 =
      ((rowsNH.filter nonEmptyRowL).foldl (stepNH rand) ([], 0)).1.length) ∧
    (processWithoutHeaders rand rowsNH = .noEmailsFound ↔
      rowsNH.filter nonEmptyRowL ≠ [] ∧
      ((rowsNH.filter nonEmptyRowL).foldl (stepNH rand) ([], 0)).1 = []) ∧
    (∀ l, processWithoutHeaders rand rowsNH = .success l →
      l = ((rowsNH.filter nonEmptyRowL).foldl (stepNH rand) ([], 0)).1 ∧
      ((rowsNH.filter nonEmptyRowL).foldl (stepNH rand) ([], 0)).2 = l.length ∧
      idsOk l) := by
  have hcntH := foldl_stepWH_count rand (rowsH.filter nonEmptyRowH) ([], 0)
  have hcntN := foldl_stepNH_count rand (rowsNH.filter nonEmptyRowL) ([], 0)
  simp only [List.length_nil] at hcntH hcntN
  refine ⟨by omega, ?_, ?_, by omega, ?_, ?_⟩
  · rw [processWithHeaders]
    by_cases h0 : (rowsH.filter nonEmptyRowH).isEmpty = true
    · rw [if_pos h0]
      rw [List.isEmpty_iff] at h0
      simp [h0]
    · rw [if_neg h0]
      rw [List.isEmpty_iff] at h0
      by_cases hz : ((rowsH.filter nonEmptyRowH).foldl (stepWH rand) ([], 0)).2 = 0
      · rw [if_pos hz]
        have hlen : ((rowsH.filter nonEmptyRowH).foldl (stepWH rand) ([], 0)).1.length = 0 :=
          by omega
        rw [List.length_eq_zero] at hlen
        simp [h0, hlen]
      · rw [if_neg hz]
        have : ((rowsH.filter nonEmptyRowH).foldl (stepWH rand) ([], 0)).1 ≠ [] := by
          intro hnil
          rw [hnil] at hcntH
          simp at hcntH
          omega
        simp [this]
  · intro l hl
    rw [processWithHeaders] at hl
    by_cases h0 : (rowsH.filter nonEmptyRowH).isEmpty = true
    · rw [if_pos h0] at hl
      exact absurd hl (by simp)
    · rw [if_neg h0] at hl
      by_cases hz : ((rowsH.filter nonEmptyRowH).foldl (stepWH rand) ([], 0)).2 = 0
      · rw [if_pos hz] at hl
        exact absurd hl (by simp)
      · rw [if_neg hz] at hl
        rw [ProcessResult.success.injEq] at hl
        subst hl
        exact ⟨rfl, by omega, foldl_stepWH_ids rand _ _ rfl⟩
  · rw [processWithoutHeaders]
    by_cases h0 : (rowsNH.filter nonEmptyRowL).isEmpty = true
    · rw [if_pos h0]
      rw [List.isEmpty_iff] at h0
      simp [h0]
    · rw [if_neg h0]
      rw [List.isEmpty_iff] at h0
      by_cases hz : ((rowsNH.filter nonEmptyRowL).foldl (stepNH rand) ([], 0)).2 = 0
      · rw [if_pos hz]
        have hlen : ((rowsNH.filter nonEmptyRowL).foldl (stepNH rand) ([], 0)).1.length = 0 :=
          by omega
        rw [List.length_eq_zero] at hlen
        simp [h0, hlen]
      · rw [if_neg hz]
        have : ((rowsNH.filter nonEmptyRowL).foldl (stepNH rand) ([], 0)).1 ≠ [] := by
          intro hnil
          rw [hnil] at hcntN
          simp at hcntN
          omega
        simp [this]
  · intro l hl
    rw [processWithoutHeaders] at hl
    by_cases h0 : (rowsNH.filter nonEmptyRowL).isEmpty = true
    · rw [if_pos h0] at hl
      exact absurd hl (by simp)
    · rw [if_neg h0] at hl
      by_cases hz : ((rowsNH.filter nonEmptyRowL).foldl (stepNH rand) ([], 0)).2 = 0
      · rw [if_pos hz] at hl
        exact absurd hl (by simp)
      · rw [if_neg hz] at hl
        rw [ProcessResult.success.injEq] at hl
        subst hl
        exact ⟨rfl, by omega, foldl_stepNH_ids rand _ _ rfl⟩

/-- Witness for C10: a concrete successful header-strategy run, whose
counter equals the single record and whose id list is correct. -/
theorem c10_witness :
    (([[("Email".toList, "ada@x.com".toList)]].filter nonEmptyRowH).foldl
      (stepWH rand0) ([], 0)).2 = [adaRecord].length ∧ idsOk [adaRecord] := by
  have h := (c10_counter_records rand0 [[("Email".toList, "ada@x.com".toList)]] []).2.2.1
    [adaRecord] (by decide)
  exact ⟨h.2.1, h.2.2⟩

/-- Counterexample for C7's NoEmailsFound criterion: a table whose single
remaining row holds a cell with an extractable email, yet the header
strategy reports NoEmailsFound, because the matched `Email` column value
`none` is authoritative and fails extraction. -/
theorem c7_counterexample :
    processWithHeaders rand0
      [[("Email".toList, "none".toList), ("other".toList, "a@b.co".toList)]] =
      .noEmailsFound ∧
    [[("Email".toList, "none".toList), ("other".toList, "a@b.co".toList)]].filter
      nonEmptyRowH ≠ [] ∧
    extractEmail (some ("a@b.co".toList)) = some ("a@b.co".toList) := by
  exact ⟨by decide, by decide, by decide⟩

/-- Claim C7 (amended): each strategy reports NoData exactly when no rows
remain after dropping rows whose every value is empty; it reports
NoEmailsFound exactly when rows remain but the strategy's own email
resolution (the authoritative-column rule for the header strategy, which
can suppress extractable emails in other cells; per-cell extraction for
the headerless strategy) yields no email in any row; a success result is
never the empty record list. -/
theorem c7_failure_characterization (rand : Rand) (rowsH : List RowH) (rowsNH : List RowL) :
    (processWithHeaders rand rowsH = .noData ↔ rowsH.filter nonEmptyRowH = []) ∧
    (processWithHeaders rand rowsH = .noEmailsFound ↔
      rowsH.filter nonEmptyRowH ≠ [] ∧
      ∀ row ∈ rowsH.filter nonEmptyRowH, truthy (rowEmail row) = false) ∧
    (∀ l, processWithHeaders rand rowsH = .success l → l ≠ []) ∧
    (processWithoutHeaders rand rowsNH = .noData ↔ rowsNH.filter nonEmptyRowL = []) ∧
    (processWithoutHeaders rand rowsNH = .noEmailsFound ↔
      rowsNH.filter nonEmptyRowL ≠ [] ∧
      ∀ row ∈ rowsNH.filter nonEmptyRowL, ∀ cell ∈ row,
        truthy (extractEmail (some cell)) = false) ∧
    (∀ l, processWithoutHeaders rand rowsNH = .success l → l ≠ []) := by
  have hiffH := foldl_stepWH_snd_eq_iff rand (rowsH.filter nonEmptyRowH) ([], 0)
  have hiffN := foldl_stepNH_snd_eq_iff rand (rowsNH.filter nonEmptyRowL) ([], 0)
  have hcntH := foldl_stepWH_count rand (rowsH.filter nonEmptyRowH) ([], 0)
  have hcntN := foldl_stepNH_count rand (rowsNH.filter nonEmptyRowL) ([], 0)
  simp only [List.length_nil] at hiffH hiffN hcntH hcntN
  refine ⟨?_, ?_, ?_, ?_, ?_, ?_⟩
  · rw [processWithHeaders]
    by_cases h0 : (rowsH.filter nonEmptyRowH).isEmpty = true
    · rw [if_pos h0]
      rw [List.isEmpty_iff] at h0
      simp [h0]
    · rw [if_neg h0]
      rw [List.isEmpty_iff] at h0
      by_cases hz : ((rowsH.filter nonEmptyRowH).foldl (stepWH rand) ([], 0)).2 = 0
      · rw [if_pos hz]
        simp [h0]
      · rw [if_neg hz]
        simp [h0]
  · rw [processWithHeaders]
    by_cases h0 : (rowsH.filter nonEmptyRowH).isEmpty = true
    · rw [if_pos h0]
      rw [List.isEmpty_iff] at h0
      simp [h0]
    · rw [if_neg h0]
      rw [List.isEmpty_iff] at h0
      by_cases hz : ((rowsH.filter nonEmptyRowH).foldl (stepWH rand) ([], 0)).2 = 0
      · rw [if_pos hz]
        simp only [true_iff, iff_true]
        exact ⟨h0, hiffH.mp hz⟩
      · rw [if_neg hz]
        constructor
        · intro h
          exact absurd h (by simp)
        · intro h
          exact absurd (hiffH.mpr h.2) hz
  · intro l hl
    rw [processWithHeaders] at hl
    by_cases h0 : (rowsH.filter nonEmptyRowH).isEmpty = true
    · rw [if_pos h0] at hl
      exact absurd hl (by simp)
    · rw [if_neg h0] at hl
      by_cases hz : ((rowsH.filter nonEmptyRowH).foldl (stepWH rand) ([], 0)).2 = 0
      · rw [if_pos hz] at hl
        exact absurd hl (by simp)
      · rw [if_neg hz] at hl
        rw [ProcessResult.success.injEq] at hl
        subst hl
        intro hnil
        rw [hnil] at hcntH
        simp at hcntH
        omega
  · rw [processWithoutHeaders]
    by_cases h0 : (rowsNH.filter nonEmptyRowL).isEmpty = true
    · rw [if_pos h0]
      rw [List.isEmpty_iff] at h0
      simp [h0]
    · rw [if_neg h0]
      rw [List.isEmpty_iff] at h0
      by_cases hz : ((rowsNH.filter nonEmptyRowL).foldl (stepNH rand) ([], 0)).2 = 0
      · rw [if_pos hz]
        simp [h0]
      · rw [if_neg hz]
        simp [h0]
  · rw [processWithoutHeaders]
    by_cases h0 : (rowsNH.filter nonEmptyRowL).isEmpty = true
    · rw [if_pos h0]
      rw [List.isEmpty_iff] at h0
      simp [h0]
    · rw [if_neg h0]
      rw [List.isEmpty_iff] at h0
      by_cases hz : ((rowsNH.filter nonEmptyRowL).foldl (stepNH rand) ([], 0)).2 = 0
      · rw [if_pos hz]
        simp only [true_iff, iff_true]
        exact ⟨h0, hiffN.mp hz⟩
      · rw [if_neg hz]
        constructor
        · intro h
          exact absurd h (by simp)
        · intro h
          exact absurd (hiffN.mpr h.2) hz
  · intro l hl
    rw [processWithoutHeaders] at hl
    by_cases h0 : (rowsNH.filter nonEmptyRowL).isEmpty = true
    · rw [if_pos h0] at hl
      exact absurd hl (by simp)
    · rw [if_neg h0] at hl
      by_cases hz : ((rowsNH.filter nonEmptyRowL).foldl (stepNH rand) ([], 0)).2 = 0
      · rw [if_pos hz] at hl
        exact absurd hl (by simp)
      · rw [if_neg hz] at hl
        rw [ProcessResult.success.injEq] at hl
        subst hl
        intro hnil
        rw [hnil] at hcntN
        simp at hcntN
        omega

/-- Witness for C7: concrete failure runs of both strategies obtained from
the characterization. -/
theorem c7_witness :
    processWithHeaders rand0 ([] : List RowH) = .noData ∧
    processWithoutHeaders rand0 [["x".toList]] = .noEmailsFound := by
  constructor
  · exact (c7_failure_characterization rand0 [] []).1.mpr (by decide)
  · exact (c7_failure_characterization rand0 [] [["x".toList]]).2.2.2.2.1.mpr
      (by decide)

/-! ### The random draws influence only the alias fields -/

theorem stepWHCore_push (acc : List RecordCore × Nat) (row : RowH) {c : Char} {cs : Str}
    (h : rowEmail row = some (c :: cs)) :
    stepWHCore acc row = pushRecordCore acc (orEmpty (findColumn row firstNameKeys))
      (orEmpty (findColumn row lastNameKeys)) (c :: cs) := by
  rw [stepWHCore, h]

theorem stepWHCore_skip (acc : List RecordCore × Nat) (row : RowH)
    (h : truthy (rowEmail row) = false) : stepWHCore acc row = acc := by
  rw [stepWHCore]
  cases hre : rowEmail row with
  | none => rfl
  | some e =>
      cases e with
      | nil => rfl
      | cons c cs =>
          rw [hre] at h
          simp [truthy] at h

theorem cellsFoldCore_push (row : RowL) (acc : List RecordCore × Nat) (i : Nat)
    (cell : Str) (cells : List Str) {c : Char} {cs : Str}
    (h : extractEmail (some cell) = some (c :: cs)) :
    cellsFoldCore row acc i (cell :: cells) =
      cellsFoldCore row
        (pushRecordCore acc (inferNames row i).1 (inferNames row i).2 (c :: cs))
        (i + 1) cells := by
  rw [cellsFoldCore, h]

theorem cellsFoldCore_skip (row : RowL) (acc : List RecordCore × Nat) (i : Nat)
    (cell : Str) (cells : List Str) (h : truthy (extractEmail (some cell)) = false) :
    cellsFoldCore row acc i (cell :: cells) = cellsFoldCore row acc (i + 1) cells := by
  rw [cellsFoldCore]
  cases hx : extractEmail (some cell) with
  | none => rfl
  | some e =>
      cases e with
      | nil => rfl
      | cons c cs =>
          rw [hx] at h
          simp [truthy] at h

theorem stripRecord_pushRecord (acc : List Record × Nat) (fn ln e : Str) (d : Nat × Str) :
    ((pushRecord acc fn ln e d).1.map stripRecord, (pushRecord acc fn ln e d).2) =
      pushRecordCore (acc.1.map stripRecord, acc.2) fn ln e := by
  simp [pushRecord, pushRecordCore, stripRecord, List.map_append, List.length_map]

theorem stepWH_sim (rand : Rand) (acc : List Record × Nat) (row : RowH) :
    ((stepWH rand acc row).1.map stripRecord, (stepWH rand acc row).2) =
      stepWHCore (acc.1.map stripRecord, acc.2) row := by
  rcases truthy_cases (rowEmail row) with h | ⟨c, cs, h⟩
  · rw [stepWH_skip rand acc row h, stepWHCore_skip _ row h]
  · rw [stepWH_push rand acc row h, stepWHCore_push _ row h]
    exact stripRecord_pushRecord acc _ _ _ _

theorem foldl_stepWH_sim (rand : Rand) : ∀ (data : List RowH) (acc : List Record × Nat),
    ((data.foldl (stepWH rand) acc).1.map stripRecord, (data.foldl (stepWH rand) acc).2) =
      data.foldl stepWHCore (acc.1.map stripRecord, acc.2)
  | [], acc => rfl
  | row :: rest, acc => by
      rw [List.foldl_cons, List.foldl_cons]
      rw [foldl_stepWH_sim rand rest (stepWH rand acc row), stepWH_sim rand acc row]

theorem cellsFold_sim (rand : Rand) (row : RowL) : ∀ (cells : List Str) (i : Nat)
    (acc : List Record × Nat),
    ((cellsFold rand row acc i cells).1.map stripRecord,
      (cellsFold rand row acc i cells).2) =
      cellsFoldCore row (acc.1.map stripRecord, acc.2) i cells
  | [], i, acc => rfl
  | cell :: rest, i, acc => by
      rcases truthy_cases (extractEmail (some cell)) with h | ⟨c, cs, h⟩
      · rw [cellsFold_skip rand row acc i cell rest h, cellsFoldCore_skip row _ i cell rest h]
        exact cellsFold_sim rand row rest (i + 1) acc
      · rw [cellsFold_push rand row acc i cell rest h, cellsFoldCore_push row _ i cell rest h]
        rw [cellsFold_sim rand row rest (i + 1) _]
        rw [stripRecord_pushRecord acc _ _ _ _]

theorem foldl_stepNH_sim (rand : Rand) : ∀ (data : List RowL) (acc : List Record × Nat),
    ((data.foldl (stepNH rand) acc).1.map stripRecord, (data.foldl (stepNH rand) acc).2) =
      data.foldl stepNHCore (acc.1.map stripRecord, acc.2)
  | [], acc => rfl
  | row :: rest, acc => by
      rw [List.foldl_cons, List.foldl_cons]
      rw [foldl_stepNH_sim rand rest (stepNH rand acc row)]
      rw [stepNH, stepNHCore]
      rw [cellsFold_sim rand row row 0 acc]

theorem processWithHeaders_strip (r1 r2 : Rand) (rows : List RowH) :
    stripResult (processWithHeaders r1 rows) = stripResult (processWithHeaders r2 rows) := by
  have h1 := foldl_stepWH_sim r1 (rows.filter nonEmptyRowH) ([], 0)
  have h2 := foldl_stepWH_sim r2 (rows.filter nonEmptyRowH) ([], 0)
  have h12 := h1.trans h2.symm
  rw [Prod.mk.injEq] at h12
  obtain ⟨hm, hc⟩ := h12
  rw [processWithHeaders, processWithHeaders]
  by_cases h0 : (rows.filter nonEmptyRowH).isEmpty = true
  · rw [if_pos h0, if_pos h0]
  · rw [if_neg h0, if_neg h0]
    by_cases hz : ((rows.filter nonEmptyRowH).foldl (stepWH r1) ([], 0)).2 = 0
    · rw [if_pos hz, if_pos (by omega)]
    · rw [if_neg hz, if_neg (by omega)]
      simp [stripResult, hm]

theorem processWithoutHeaders_strip (r1 r2 : Rand) (rows : List RowL) :
    stripResult (processWithoutHeaders r1 rows) =
      stripResult (processWithoutHeaders r2 rows) := by
  have h1 := foldl_stepNH_sim r1 (rows.filter nonEmptyRowL) ([], 0)
  have h2 := foldl_stepNH_sim r2 (rows.filter nonEmptyRowL) ([], 0)
  have h12 := h1.trans h2.symm
  rw [Prod.mk.injEq] at h12
  obtain ⟨hm, hc⟩ := h12
  rw [processWithoutHeaders, processWithoutHeaders]
  by_cases h0 : (rows.filter nonEmptyRowL).isEmpty = true
  · rw [if_pos h0, if_pos h0]
  · rw [if_neg h0, if_neg h0]
    by_cases hz : ((rows.filter nonEmptyRowL).foldl (stepNH r1) ([], 0)).2 = 0
    · rw [if_pos hz, if_pos (by omega)]
    · rw [if_neg hz, if_neg (by omega)]
      simp [stripResult, hm]

/-- Claim C9: running either extraction strategy twice on the same parsed
rows with different random draws gives the same outcome kind, and on
success record lists that agree pairwise on id, firstName, lastName and
originalEmail (the alias-stripped results are equal, so only the
aliasEmail fields may differ, and the lists have equal length). -/
theorem c9_idempotence (r1 r2 : Rand) (rowsH : List RowH) (rowsNH : List RowL) :
    stripResult (processWithHeaders r1 rowsH) = stripResult (processWithHeaders r2 rowsH) ∧
    stripResult (processWithoutHeaders r1 rowsNH) =
      stripResult (processWithoutHeaders r2 rowsNH) :=
  ⟨processWithHeaders_strip r1 r2 rowsH, processWithoutHeaders_strip r1 r2 rowsNH⟩

/-- Claim C8: the record list is updated all-or-nothing.  For every upload
attempt, the resulting `processedData` is the old list whenever any step
fails (wrong extension, parse error, NoData, NoEmailsFound), and exactly
the fully computed new list on success. -/
theorem c8_all_or_nothing (rand : Rand) (fileName : Str)
    (pH : ParseOutcome (List RowH)) (pNH : ParseOutcome (List RowL)) (st : AppState) :
    (handleFileUpload rand fileName pH pNH st).processedData =
      (match uploadRecords rand fileName pH pNH with
       | some l => l
       | none => st.processedData) := by
  rw [handleFileUpload.eq_def, uploadRecords.eq_def]
  by_cases hcsv : endsWithCsv fileName = true
  · rw [if_neg (by simp [hcsv]), if_neg (by simp [hcsv])]
    cases pH with
    | failed m => simp
    | ok rowsH =>
        cases hmode : detectMode rowsH with
        | header =>
            cases hres : processWithHeaders rand rowsH with
            | noData => simp [hmode, hres, applyResult]
            | noEmailsFound => simp [hmode, hres, applyResult]
            | success l => simp [hmode, hres, applyResult]
        | headerless =>
            cases pNH with
            | failed m => simp [hmode]
            | ok rowsNH =>
                cases hres : processWithoutHeaders rand rowsNH with
                | noData => simp [hmode, hres, applyResult]
                | noEmailsFound => simp [hmode, hres, applyResult]
                | success l => simp [hmode, hres, applyResult]
  · have hcsv' : endsWithCsv fileName = false := by
      revert hcsv
      cases endsWithCsv fileName <;> simp
    rw [if_pos (by simp [hcsv']), if_pos (by simp [hcsv'])]

/-- Claim C4: the mode decision signals Headerless exactly when the first
result row has zero fields (including when there is no result row at all)
or some field name passes the anchored email test; when it signals Header
the header strategy runs on the already-parsed rows, and when it signals
Headerless the headerless strategy runs on the re-parsed rows. -/
theorem c4_detect_mode (rand : Rand) (rowsH : List RowH) (rowsNH : List RowL) :
    (detectMode rowsH = .headerless ↔
      (rowsH.headD []).length = 0 ∨
        (rowsH.headD []).any (fun kv => emailRegexTest kv.1) = true) ∧
    (detectMode rowsH = .header →
      dispatch rand rowsH rowsNH = processWithHeaders rand rowsH) ∧
    (detectMode rowsH = .headerless →
      dispatch rand rowsH rowsNH = processWithoutHeaders rand rowsNH) := by
  refine ⟨?_, ?_, ?_⟩
  · cases rowsH with
    | nil => simp [detectMode]
    | cons r rows =>
        rw [detectMode]
        by_cases hlen : r.length = 0
        · simp [hlen]
        · rw [if_neg hlen]
          by_cases hkey : r.any (fun kv => emailRegexTest kv.1) = true
          · simp [hkey, hlen]
          · simp [hkey, hlen]
  · intro h
    rw [dispatch, h]
  · intro h
    rw [dispatch, h]

/-- Witness for C4: one concrete table routed to each strategy. -/
theorem c4_witness :
    dispatch rand0 [[("First".toList, "Ada".toList)]] [] =
      processWithHeaders rand0 [[("First".toList, "Ada".toList)]] ∧
    dispatch rand0 [[("john@x.com".toList, "y".toList)]] [] =
      processWithoutHeaders rand0 ([] : List RowL) := by
  constructor
  · exact (c4_detect_mode rand0 [[("First".toList, "Ada".toList)]] []).2.1 (by decide)
  · exact (c4_detect_mode rand0 [[("john@x.com".toList, "y".toList)]] []).2.2 (by decide)

/-- Counterexample for C3: in this row the first field whose name matches
the email candidates is `Email`, and extraction from its (empty) value
fails, so by the claim the row's email should be absent and the table
should yield no records; but the empty matched value is JS-falsy, the code
falls through to the all-columns scan, and the row resolves the email of
the `notes` column. -/
theorem c3_counterexample :
    findColumn [("Email".toList, []), ("notes".toList, "a@b.co".toList)] emailKeys =
      some [] ∧
    extractEmail (some []) = none ∧
    rowEmail [("Email".toList, []), ("notes".toList, "a@b.co".toList)] =
      some ("a@b.co".toList) ∧
    processWithHeaders rand0
      [[("Email".toList, []), ("notes".toList, "a@b.co".toList)]] ≠ .noEmailsFound := by
  exact ⟨by decide, by decide, by decide, by decide⟩

/-- Claim C3 (amended): the first field whose name matches the email
candidates is authoritative only when its value is non-empty.  If that
value is truthy and extraction from it fails, the row's email is absent
and the row yields no record, with no other column tried; if no field
name matches, or the matched field's value is empty (falsy), every field
value of the row is scanned in order instead. -/
theorem c3_email_column_authoritative (rand : Rand) (acc : List Record × Nat)
    (row : RowH) :
    (truthy (findColumn row emailKeys) = true →
      rowEmail row = extractEmail (findColumn row emailKeys) ∧
      (extractEmail (findColumn row emailKeys) = none →
        rowEmail row = none ∧ stepWH rand acc row = acc)) ∧
    (truthy (findColumn row emailKeys) = false →
      rowEmail row = scanRowForEmail row) := by
  constructor
  · intro ht
    have h1 : rowEmail row = extractEmail (findColumn row emailKeys) := by
      rw [rowEmail, if_pos ht]
    refine ⟨h1, fun hnone => ?_⟩
    have h2 : rowEmail row = none := h1.trans hnone
    exact ⟨h2, stepWH_skip rand acc row (by rw [h2]; rfl)⟩
  · intro ht
    rw [rowEmail, if_neg (by simp [ht])]

/-- Witness for C3 (amended): a row with a truthy email column whose value
fails extraction yields no record. -/
theorem c3_witness :
    truthy (findColumn [("Email".toList, "none".toList)] emailKeys) = true ∧
    extractEmail (findColumn [("Email".toList, "none".toList)] emailKeys) = none ∧
    rowEmail [("Email".toList, "none".toList)] = none ∧
    stepWH rand0 ([], 0) [("Email".toList, "none".toList)] = ([], 0) := by
  refine ⟨by decide, by decide, ?_, ?_⟩
  · exact (((c3_email_column_authoritative rand0 ([], 0)
      [("Email".toList, "none".toList)]).1 (by decide)).2 (by decide)).1
  · exact (((c3_email_column_authoritative rand0 ([], 0)
      [("Email".toList, "none".toList)]).1 (by decide)).2 (by decide)).2

/-! ### The shape of generated aliases -/

theorem toNat_ofNat_valid {n : Nat} (h : n < 55296) : (Char.ofNat n).toNat = n := by
  have hv : n.isValidChar := Or.inl h
  rw [Char.ofNat, dif_pos hv]
  rfl

theorem lowerChar_isLowerLocal {c : Char} (h : isLocalChar c = true) :
    isLowerLocal (lowerChar c) = true := by
  rw [lowerChar]
  by_cases hu : isAsciiUpper c = true
  · rw [if_pos hu]
    rw [isAsciiUpper, Bool.and_eq_true, decide_eq_true_eq, decide_eq_true_eq] at hu
    have htn : (Char.ofNat (c.toNat + 32)).toNat = c.toNat + 32 :=
      toNat_ofNat_valid (by omega)
    have h1 : 97 ≤ c.toNat + 32 := by omega
    have h2 : c.toNat + 32 ≤ 122 := by omega
    simp [isLowerLocal, isAsciiLower, htn, h1, h2]
  · rw [if_neg hu]
    have hu' : isAsciiUpper c = false := by
      revert hu
      cases isAsciiUpper c <;> simp
    rw [isLocalChar, isAsciiAlpha, hu'] at h
    rw [isLowerLocal]
    simpa using h

theorem isAsciiDigit_digitChar {d : Nat} (h : d < 10) :
    isAsciiDigit (digitChar d) = true := by
  rw [digitChar, isAsciiDigit]
  have htn : (Char.ofNat (48 + d)).toNat = 48 + d := toNat_ofNat_valid (by omega)
  rw [htn]
  simp only [Bool.and_eq_true, decide_eq_true_eq]
  omega

theorem natToDigitsAux_all_digits : ∀ (fuel n : Nat),
    (natToDigitsAux fuel n).all isAsciiDigit = true
  | 0, n => rfl
  | fuel + 1, n => by
      rw [natToDigitsAux]
      by_cases h : n < 10
      · rw [if_pos h]
        simp [isAsciiDigit_digitChar h]
      · rw [if_neg h]
        rw [List.all_append]
        simp [natToDigitsAux_all_digits fuel (n / 10),
          isAsciiDigit_digitChar (Nat.mod_lt n (by omega))]

theorem natToDigitsAux_length_pos : ∀ (fuel n : Nat), 1 ≤ fuel →
    1 ≤ (natToDigitsAux fuel n).length
  | fuel + 1, n, _ => by
      rw [natToDigitsAux]
      by_cases h : n < 10
      · rw [if_pos h]
        simp
      · rw [if_neg h]
        simp

theorem natToDigitsAux_length_le : ∀ (k fuel n : Nat), n < 10 ^ k → 1 ≤ k →
    (natToDigitsAux fuel n).length ≤ k
  | k, 0, n, _, _ => by
      rw [natToDigitsAux]
      simp
  | k, fuel + 1, n, hn, hk => by
      rw [natToDigitsAux]
      by_cases h : n < 10
      · rw [if_pos h]
        simpa using hk
      · rw [if_neg h]
        rw [List.length_append]
        have hk2 : 2 ≤ k := by
          by_contra hlt
          have hk1 : k = 1 := by omega
          rw [hk1] at hn
          simp at hn
          omega
        have hdiv : n / 10 < 10 ^ (k - 1) := by
          rw [Nat.div_lt_iff_lt_mul (by omega : 0 < 10)]
          have : 10 ^ (k - 1) * 10 = 10 ^ k := by
            rw [← Nat.pow_succ]
            congr 1
            omega
          omega
        have := natToDigitsAux_length_le (k - 1) fuel (n / 10) hdiv (by omega)
        simp only [List.length_cons, List.length_nil]
        omega

theorem natToDigits_all_digits (n : Nat) : (natToDigits n).all isAsciiDigit = true :=
  natToDigitsAux_all_digits (n + 1) n

theorem natToDigits_length {n : Nat} (h : n < 10000) :
    1 ≤ (natToDigits n).length ∧ (natToDigits n).length ≤ 4 := by
  constructor
  · exact natToDigitsAux_length_pos (n + 1) n (by omega)
  · refine natToDigitsAux_length_le 4 (n + 1) n ?_ (by omega)
    norm_num
    omega

/-- Counterexample for C2: the valid email `9a@b.co`, with integer draw 7
and the 2-character base-36 fragment `29` (a possible value of
`Math.random().toString(36).substring(2, 5)`: `Math.random()` can return
0.0625, whose base-36 rendering is the 4-character string `0.29`), yields
the alias `9729@cdnhyd.appen.com`, which fails the claimed pattern
`^[a-z][0-9]{1,4}[0-9a-z]{3}@cdnhyd.appen.com$`: its first character `9`
is not in `[a-z]`, and only 3 characters precede the domain where the
pattern needs at least 4. -/
theorem c2_counterexample :
    emailRegexTest ("9a@b.co".toList) = true ∧
    7 < 10000 ∧
    ("29".toList).all isBase36 = true ∧
    ("29".toList).length ≤ 3 ∧
    generateAlias ("9a@b.co".toList) 7 ("29".toList) = "9729@cdnhyd.appen.com".toList ∧
    aliasPattern (generateAlias ("9a@b.co".toList) 7 ("29".toList)) = false := by
  exact ⟨by decide, by decide, by decide, by decide, by decide, by decide⟩

/-- Claim C2 (amended): for every valid email and every possible pair of
random draws (an integer below 10000 and 0 to 3 base-36 characters), the
generated alias matches
`^[a-z0-9._%+-][0-9]{1,4}[0-9a-z]{0,3}@cdnhyd.appen.com$`, and its first
character is the lower-cased first character of the email's local part. -/
theorem c2_alias_shape (e : Str) (n : Nat) (cs : Str)
    (he : emailRegexTest e = true) (hn : n < 10000)
    (hcs : cs.all isBase36 = true) (hlen : cs.length ≤ 3) :
    aliasPatternAmended (generateAlias e n cs) = true ∧
    (∃ c rest, localPartOf e = c :: rest ∧
      (generateAlias e n cs).head? = some (lowerChar c)) := by
  cases e with
  | nil => exact absurd he (by decide)
  | cons c0 erest =>
      rw [emailRegexTest, Bool.and_eq_true] at he
      obtain ⟨hc0, _⟩ := he
      have hc0ne : (c0 == '@') = false := by
        rw [beq_eq_false_iff_ne]
        intro hcontr
        rw [hcontr] at hc0
        exact absurd hc0 (by decide)
      have hlocal : localPartOf (c0 :: erest) =
          c0 :: erest.takeWhile (fun c => !(c == '@')) := by
        rw [localPartOf, List.takeWhile_cons, hc0ne]
        simp
      have halias : generateAlias (c0 :: erest) n cs =
          lowerChar c0 :: (natToDigits n ++ (cs ++ aliasDomainL)) := by
        rw [generateAlias, hlocal]
        simp [List.append_assoc]
      refine ⟨?_, c0, erest.takeWhile (fun c => !(c == '@')), hlocal, by rw [halias]; rfl⟩
      rw [halias, aliasPatternAmended, Bool.and_eq_true]
      refine ⟨lowerChar_isLowerLocal hc0, ?_⟩
      obtain ⟨hd1, hd4⟩ := natToDigits_length hn
      rw [List.any_eq_true]
      refine ⟨(natToDigits n).length - 1, List.mem_range.mpr (by omega), ?_⟩
      rw [List.any_eq_true]
      refine ⟨cs.length, List.mem_range.mpr (by omega), ?_⟩
      have hjd : (natToDigits n).length - 1 + 1 = (natToDigits n).length := by omega
      rw [hjd, aliasTail]
      rw [List.take_left, List.drop_left, List.take_left, List.drop_left]
      simp [natToDigits_all_digits n, hcs]

/-- Witness for C2 (amended): a concrete valid email and draw pair on
which the amended pattern holds. -/
theorem c2_witness :
    emailRegexTest ("Ada@x.com".toList) = true ∧
    aliasPatternAmended (generateAlias ("Ada@x.com".toList) 1234 ("abc".toList)) = true := by
  refine ⟨by decide, ?_⟩
  exact (c2_alias_shape ("Ada@x.com".toList) 1234 ("abc".toList) (by decide) (by decide)
    (by decide) (by decide)).1

/-! ### The headerless name lookback matches its specification -/

theorem isEmpty_false_iff {s : Str} : s.isEmpty = false ↔ s ≠ [] := by
  cases s <;> simp

theorem nonempty_short_iff (s : Str) (k : Nat) :
    (!s.isEmpty && decide (s.length < k)) = true ↔ s ≠ [] ∧ s.length < k := by
  rw [Bool.and_eq_true, Bool.not_eq_true', decide_eq_true_eq, isEmpty_false_iff]

theorem splitName_eq (s : Str) : splitNameCell s = splitNameSpec s := rfl

/-- Claim C6: for every cell index `i` of a headerless row that yields an
email, the name lookback of the code agrees with the specification's
description: a preceding non-email cell that trims to a non-empty string
shorter than 50 characters triggers the two-cell or split-name rules,
and in every other case both names are empty. -/
theorem c6_lookback_names (row : RowL) (i : Nat) (_hi : i < row.length)
    (_hemail : truthy (extractEmail (some (row.getD i []))) = true) :
    inferNames row i = inferNamesSpec row i := by
  have hcond1 : (decide (0 < i) &&
      !truthy (extractEmail (some (row.getD (i - 1) [])))) = true ↔
      (0 < i ∧ extractEmail (some (row.getD (i - 1) [])) = none) := by
    rw [Bool.and_eq_true, decide_eq_true_eq, Bool.not_eq_true',
      truthy_extractEmail_false_iff]
  have hcond3 : (decide (1 < i) &&
      !truthy (extractEmail (some (row.getD (i - 2) [])))) = true ↔
      (1 < i ∧ extractEmail (some (row.getD (i - 2) [])) = none) := by
    rw [Bool.and_eq_true, decide_eq_true_eq, Bool.not_eq_true',
      truthy_extractEmail_false_iff]
  rw [inferNames, inferNamesSpec]
  by_cases hAB : 0 < i ∧ extractEmail (some (row.getD (i - 1) [])) = none
  · rw [if_pos (hcond1.mpr hAB)]
    by_cases hC : trimL (row.getD (i - 1) []) ≠ [] ∧
        (trimL (row.getD (i - 1) [])).length < 50
    · have hspec1 : 1 ≤ i ∧ extractEmail (some (row.getD (i - 1) [])) = none ∧
          trimL (row.getD (i - 1) []) ≠ [] ∧
          (trimL (row.getD (i - 1) [])).length < 50 :=
        ⟨hAB.1, hAB.2, hC.1, hC.2⟩
      rw [if_pos ((nonempty_short_iff _ _).mpr hC)]
      rw [if_pos hspec1]
      by_cases hDE : 1 < i ∧ extractEmail (some (row.getD (i - 2) [])) = none
      · rw [if_pos (hcond3.mpr hDE)]
        by_cases hF : trimL (row.getD (i - 2) []) ≠ [] ∧
            (trimL (row.getD (i - 2) [])).length < 50
        · have hspec2 : 2 ≤ i ∧ extractEmail (some (row.getD (i - 2) [])) = none ∧
              trimL (row.getD (i - 2) []) ≠ [] ∧
              (trimL (row.getD (i - 2) [])).length < 50 :=
            ⟨hDE.1, hDE.2, hF.1, hF.2⟩
          rw [if_pos ((nonempty_short_iff _ _).mpr hF)]
          rw [if_pos hspec2]
        · rw [if_neg (fun hcontr => hF ((nonempty_short_iff _ _).mp hcontr))]
          rw [if_neg (fun hcontr => hF ⟨hcontr.2.2.1, hcontr.2.2.2⟩)]
          exact splitName_eq _
      · rw [if_neg (fun hcontr => hDE (hcond3.mp hcontr))]
        rw [if_neg (fun hcontr => hDE ⟨Nat.lt_of_lt_of_le Nat.one_lt_two hcontr.1,
          hcontr.2.1⟩)]
        exact splitName_eq _
    · rw [if_neg (fun hcontr => hC ((nonempty_short_iff _ _).mp hcontr))]
      rw [if_neg (fun hcontr => hC ⟨hcontr.2.2.1, hcontr.2.2.2⟩)]
  · rw [if_neg (fun hcontr => hAB (hcond1.mp hcontr))]
    rw [if_neg (fun hcontr => hAB ⟨Nat.lt_of_lt_of_le Nat.zero_lt_one hcontr.1,
      hcontr.2.1⟩)]

/-- Witness for C6: the lookback agrees with the specification on a
concrete row whose third cell is an email. -/
theorem c6_witness :
    2 < (["Ada".toList, "Lovelace".toList, "ada@x.com".toList] : RowL).length ∧
    truthy (extractEmail (some (["Ada".toList, "Lovelace".toList,
      "ada@x.com".toList].getD 2 []))) = true ∧
    inferNames ["Ada".toList, "Lovelace".toList, "ada@x.com".toList] 2 =
      inferNamesSpec ["Ada".toList, "Lovelace".toList, "ada@x.com".toList] 2 := by
  refine ⟨by decide, by decide, ?_⟩
  exact c6_lookback_names ["Ada".toList, "Lovelace".toList, "ada@x.com".toList] 2
    (by decide) (by decide)

end EmailAlias
